import Mathlib

/-!
# Verification of the SPICE PWL Generator waveform data/view model

A shallow embedding, in Lean 4, of the core of `main.pyw`: the point store
(`pwl_points`), unit tables, grid snapping, the uniqueness-preserving time
assignment (`find_unique_time`), point insertion / moving / deletion, the
pan/zoom/scroll view-state arithmetic, and the bidirectional text codec
(`generate_pwl_text` / `parse_pwl_text`), together with theorems settling
the specification's claims about them.

Modelling conventions:
* Python floats are modelled as exact rationals (`ℚ`).  IEEE-754 rounding,
  infinities and NaN are outside the model; `float(...)` parsing is modelled
  on the grammar of finite signed decimal/scientific literals, and the
  `"%.6g"` formatting of a float is modelled as the exact decimal rendering
  of the value rounded to 6 significant digits (round half to even, matching
  Python's `round` and the decimal rounding of `%g` at ties).
* Python's `list.sort(key=...)` is modelled by `List.insertionSort` on the
  time component; both are stable, and every list sorted in the theorems
  below has pairwise distinct keys, where all correct sorts agree.
* `dict[...]` lookups that could raise `KeyError` are modelled as `Option`
  lookups in association lists mirroring the three unit tables.
* Whitespace is Lean's `Char.isWhitespace` set (space, tab, CR, LF); the
  formatter only ever emits single spaces.
-/

namespace PWLGen

/-! ## Decimal digit machinery (supporting the `%.6g` / `float()` model) -/

/-- One decimal digit rendered as a character (`'0'`–`'9'`). -/
def digitChar (d : ℕ) : Char := Char.ofNat (48 + d)

/-- Numeric value of a decimal digit character. -/
def digitVal (c : Char) : ℕ := c.toNat - 48

/-- Little-endian base-10 digits of `n`, with explicit fuel; fuel `n`
always suffices and `digitsLE fuel 0 = []`. -/
def digitsLE : ℕ → ℕ → List ℕ
  | 0, _ => []
  | fuel + 1, n => if n = 0 then [] else n % 10 :: digitsLE fuel (n / 10)

/-- Base-10 digits of `n`, most significant first (`[]` for `0`). -/
def natDigitsBE (n : ℕ) : List ℕ := (digitsLE n n).reverse

/-- Number of decimal digits of `n` (`0` for `0`). -/
def numDigits (n : ℕ) : ℕ := (digitsLE n n).length

/-- Value of a little-endian digit list. -/
def ofDigitsLE (ds : List ℕ) : ℕ := ds.foldr (fun d a => d + 10 * a) 0

/-- Value of a big-endian digit list (leading zeros allowed). -/
def ofDigitsBE (ds : List ℕ) : ℕ := ds.foldl (fun a d => 10 * a + d) 0

theorem digitsLE_zero (fuel : ℕ) : digitsLE fuel 0 = [] := by
  cases fuel <;> simp [digitsLE]

theorem ofDigitsLE_digitsLE (fuel : ℕ) : ∀ n : ℕ, n ≤ fuel →
    ofDigitsLE (digitsLE fuel n) = n := by
  induction fuel with
  | zero => intro n h; interval_cases n; simp [digitsLE, ofDigitsLE]
  | succ fuel ih =>
    intro n h
    by_cases h0 : n = 0
    · simp [digitsLE, h0, ofDigitsLE]
    · have hrec : n / 10 ≤ fuel := by omega
      simp only [digitsLE, h0, if_false, ofDigitsLE, List.foldr_cons]
      have := ih (n / 10) hrec
      simp only [ofDigitsLE] at this
      rw [this]; omega

theorem digitsLE_lt_ten (fuel : ℕ) : ∀ n : ℕ, ∀ d ∈ digitsLE fuel n, d < 10 := by
  induction fuel with
  | zero => simp [digitsLE]
  | succ fuel ih =>
    intro n d hd
    by_cases h0 : n = 0
    · simp [digitsLE, h0] at hd
    · simp only [digitsLE, h0, if_false, List.mem_cons] at hd
      rcases hd with h | h
      · omega
      · exact ih _ _ h

theorem digitsLE_length_bounds (fuel : ℕ) : ∀ n : ℕ, n ≤ fuel → 0 < n →
    10 ^ ((digitsLE fuel n).length - 1) ≤ n ∧ n < 10 ^ (digitsLE fuel n).length := by
  induction fuel with
  | zero => intro n h h0; omega
  | succ fuel ih =>
    intro n h h0
    have h0' : n ≠ 0 := by omega
    simp only [digitsLE, h0', if_false, List.length_cons]
    by_cases hsmall : n < 10
    · have : n / 10 = 0 := by omega
      rw [this, digitsLE_zero]
      simp only [List.length_nil, Nat.zero_add, Nat.sub_self, pow_zero, pow_one]
      omega
    · have hpos : 0 < n / 10 := by omega
      have hle : n / 10 ≤ fuel := by omega
      obtain ⟨ih1, ih2⟩ := ih (n / 10) hle hpos
      have hL1 : 1 ≤ (digitsLE fuel (n / 10)).length := by
        rcases Nat.eq_zero_or_pos (digitsLE fuel (n / 10)).length with hz | hp
        · rw [hz] at ih2; simp at ih2; omega
        · exact hp
      have hpow1 : 10 ^ ((digitsLE fuel (n / 10)).length - 1) * 10
          = 10 ^ (digitsLE fuel (n / 10)).length := by
        rw [← pow_succ]; congr 1; omega
      have hpow2 : 10 ^ (digitsLE fuel (n / 10)).length * 10
          = 10 ^ ((digitsLE fuel (n / 10)).length + 1) := by rw [pow_succ]
      simp only [Nat.add_sub_cancel]
      omega

theorem ofDigitsBE_cons_zero (ds : List ℕ) : ofDigitsBE (0 :: ds) = ofDigitsBE ds := by
  simp [ofDigitsBE]

theorem ofDigitsBE_aux (B : List ℕ) : ∀ a : ℕ,
    B.foldl (fun a d => 10 * a + d) a = a * 10 ^ B.length + ofDigitsBE B := by
  induction B with
  | nil => intro a; simp [ofDigitsBE]
  | cons d t ih =>
    intro a
    simp only [List.foldl_cons, List.length_cons, ofDigitsBE]
    rw [ih (10 * a + d), ih (10 * 0 + d)]
    ring

theorem ofDigitsBE_append (A B : List ℕ) :
    ofDigitsBE (A ++ B) = ofDigitsBE A * 10 ^ B.length + ofDigitsBE B := by
  simp only [ofDigitsBE, List.foldl_append]
  exact ofDigitsBE_aux B _

theorem ofDigitsBE_replicate_zero (z : ℕ) : ofDigitsBE (List.replicate z 0) = 0 := by
  induction z with
  | zero => simp [ofDigitsBE]
  | succ z ih =>
    rw [List.replicate_succ]
    rw [ofDigitsBE_cons_zero]
    exact ih

theorem ofDigitsBE_append_zeros (ds : List ℕ) (z : ℕ) :
    ofDigitsBE (ds ++ List.replicate z 0) = ofDigitsBE ds * 10 ^ z := by
  rw [ofDigitsBE_append, ofDigitsBE_replicate_zero, List.length_replicate]
  omega

theorem ofDigitsBE_reverse (ds : List ℕ) : ofDigitsBE ds.reverse = ofDigitsLE ds := by
  induction ds with
  | nil => simp [ofDigitsBE, ofDigitsLE]
  | cons d t ih =>
    rw [List.reverse_cons, ofDigitsBE_append, ih]
    simp only [ofDigitsLE, ofDigitsBE, List.foldr_cons, List.foldl_cons,
      List.foldl_nil, List.length_cons, List.length_nil, pow_one]
    omega

theorem ofDigitsBE_natDigitsBE (n : ℕ) : ofDigitsBE (natDigitsBE n) = n := by
  rw [natDigitsBE, ofDigitsBE_reverse, ofDigitsLE_digitsLE n n le_rfl]

theorem natDigitsBE_lt_ten (n : ℕ) : ∀ d ∈ natDigitsBE n, d < 10 := by
  intro d hd
  rw [natDigitsBE, List.mem_reverse] at hd
  exact digitsLE_lt_ten n n d hd

theorem numDigits_bounds (n : ℕ) (h0 : 0 < n) :
    10 ^ (numDigits n - 1) ≤ n ∧ n < 10 ^ numDigits n :=
  digitsLE_length_bounds n n le_rfl h0

theorem numDigits_pos (n : ℕ) (h0 : 0 < n) : 0 < numDigits n := by
  by_contra hc
  obtain ⟨_, h2⟩ := numDigits_bounds n h0
  have : numDigits n = 0 := by omega
  rw [this] at h2
  simp at h2
  omega

theorem natDigitsBE_length (n : ℕ) : (natDigitsBE n).length = numDigits n := by
  simp [natDigitsBE, numDigits]

theorem numDigits_eq_of_bounds (n L : ℕ) (hL : 0 < L)
    (h1 : 10 ^ (L - 1) ≤ n) (h2 : n < 10 ^ L) : numDigits n = L := by
  have h0 : 0 < n := lt_of_lt_of_le (Nat.pos_pow_of_pos _ (by norm_num)) h1
  obtain ⟨b1, b2⟩ := numDigits_bounds n h0
  have hK := numDigits_pos n h0
  set K := numDigits n
  by_contra hne
  rcases Nat.lt_or_ge K L with hlt | hge
  · have : 10 ^ K ≤ 10 ^ (L - 1) := Nat.pow_le_pow_right (by norm_num) (by omega)
    omega
  · have hgt : L < K := by omega
    have : 10 ^ L ≤ 10 ^ (K - 1) := Nat.pow_le_pow_right (by norm_num) (by omega)
    omega

theorem numDigits_mul_pow (a k : ℕ) (ha : 0 < a) :
    numDigits (a * 10 ^ k) = numDigits a + k := by
  obtain ⟨b1, b2⟩ := numDigits_bounds a ha
  have hD := numDigits_pos a ha
  apply numDigits_eq_of_bounds _ _ (by omega)
  · have : 10 ^ (numDigits a - 1) * 10 ^ k ≤ a * 10 ^ k :=
      Nat.mul_le_mul_right _ b1
    calc 10 ^ (numDigits a + k - 1) = 10 ^ (numDigits a - 1) * 10 ^ k := by
          rw [← pow_add]; congr 1; omega
      _ ≤ a * 10 ^ k := this
  · have hpk : 0 < 10 ^ k := Nat.pos_pow_of_pos _ (by norm_num)
    calc a * 10 ^ k < 10 ^ numDigits a * 10 ^ k := by
          exact Nat.mul_lt_mul_of_lt_of_le b2 le_rfl hpk
      _ = 10 ^ (numDigits a + k) := by rw [← pow_add]

theorem digitVal_digitChar : ∀ d : ℕ, d < 10 → digitVal (digitChar d) = d := by decide

theorem isDigit_digitChar : ∀ d : ℕ, d < 10 → (digitChar d).isDigit = true := by decide

/-! ## Rounding to 6 significant digits (model of `%.6g` and Python `round`) -/

/-- Round half to even on `ℚ` (Python's `round`, and the decimal rounding
of `%g` at exact ties). -/
def rhe (q : ℚ) : ℤ :=
  if q - ⌊q⌋ < 1/2 then ⌊q⌋
  else if 1/2 < q - ⌊q⌋ then ⌊q⌋ + 1
  else if ⌊q⌋ % 2 = 0 then ⌊q⌋ else ⌊q⌋ + 1

theorem floor_le_rhe (q : ℚ) : ⌊q⌋ ≤ rhe q := by
  unfold rhe; split_ifs <;> omega

theorem rhe_le_floor_add_one (q : ℚ) : rhe q ≤ ⌊q⌋ + 1 := by
  unfold rhe; split_ifs <;> omega

theorem intCast_le_rhe {q : ℚ} {c : ℤ} (h : (c : ℚ) ≤ q) : c ≤ rhe q :=
  le_trans (Int.le_floor.mpr h) (floor_le_rhe q)

theorem rhe_le_of_lt {q : ℚ} {c : ℤ} (h : q < (c : ℚ)) : rhe q ≤ c := by
  have hf : ⌊q⌋ < c := Int.floor_lt.mpr (by exact_mod_cast h)
  have := rhe_le_floor_add_one q
  omega

theorem rhe_intCast (n : ℤ) : rhe (n : ℚ) = n := by
  unfold rhe
  rw [Int.floor_intCast]
  simp

theorem rhe_mono {x y : ℚ} (h : x ≤ y) : rhe x ≤ rhe y := by
  rcases lt_or_le ⌊x⌋ ⌊y⌋ with hf | hf
  · have h1 := rhe_le_floor_add_one x
    have h2 := floor_le_rhe y
    omega
  · have hfe : ⌊x⌋ = ⌊y⌋ := le_antisymm (Int.floor_le_floor h) hf
    have hq : ((⌊x⌋ : ℤ) : ℚ) = ((⌊y⌋ : ℤ) : ℚ) := by exact_mod_cast hfe
    unfold rhe
    split_ifs <;> first | omega | linarith

/-- `⌊log₁₀ q⌋` for positive `q`, computed from the decimal digit counts of
the numerator and denominator. -/
def intLog10 (q : ℚ) : ℤ :=
  if (10:ℚ) ^ ((numDigits q.num.toNat : ℤ) - (numDigits q.den : ℤ)) ≤ q then
    (numDigits q.num.toNat : ℤ) - (numDigits q.den : ℤ)
  else (numDigits q.num.toNat : ℤ) - (numDigits q.den : ℤ) - 1

theorem zpow_cast_sub_one (a : ℕ) (ha : 0 < a) :
    (10:ℚ) ^ ((a : ℤ) - 1) = ((10 ^ (a - 1) : ℕ) : ℚ) := by
  have : ((a : ℤ) - 1) = ((a - 1 : ℕ) : ℤ) := by omega
  rw [this, zpow_natCast]
  push_cast
  rfl

theorem div_digit_bounds (N D : ℕ) (hN : 0 < N) (hD : 0 < D) :
    (10:ℚ) ^ ((numDigits N : ℤ) - (numDigits D : ℤ) - 1) < (N : ℚ) / (D : ℚ) ∧
      (N : ℚ) / (D : ℚ) < 10 ^ ((numDigits N : ℤ) - (numDigits D : ℤ) + 1) := by
  obtain ⟨nb1, nb2⟩ := numDigits_bounds _ hN
  obtain ⟨db1, db2⟩ := numDigits_bounds _ hD
  have ha := numDigits_pos _ hN
  have hb := numDigits_pos _ hD
  have hDq : (0:ℚ) < (D : ℚ) := by exact_mod_cast hD
  have F1 : (10:ℚ) ^ ((numDigits N : ℤ) - 1) ≤ (N : ℚ) := by
    rw [zpow_cast_sub_one _ ha]; exact_mod_cast nb1
  have F2 : (N : ℚ) < 10 ^ (numDigits N : ℤ) := by
    rw [zpow_natCast]; exact_mod_cast nb2
  have F3 : (10:ℚ) ^ ((numDigits D : ℤ) - 1) ≤ (D : ℚ) := by
    rw [zpow_cast_sub_one _ hb]; exact_mod_cast db1
  have F4 : (D : ℚ) < 10 ^ (numDigits D : ℤ) := by
    rw [zpow_natCast]; exact_mod_cast db2
  have hp : ∀ z : ℤ, (0:ℚ) < 10 ^ z := fun z => zpow_pos (by norm_num) z
  constructor
  · rw [lt_div_iff hDq]
    calc (10:ℚ) ^ ((numDigits N : ℤ) - (numDigits D : ℤ) - 1) * (D : ℚ)
        < 10 ^ ((numDigits N : ℤ) - (numDigits D : ℤ) - 1) * 10 ^ (numDigits D : ℤ) := by
          exact mul_lt_mul_of_pos_left F4 (hp _)
      _ = 10 ^ ((numDigits N : ℤ) - 1) := by
          rw [← zpow_add₀ (by norm_num : (10:ℚ) ≠ 0)]; congr 1; ring
      _ ≤ (N : ℚ) := F1
  · rw [div_lt_iff hDq]
    calc (N : ℚ) < 10 ^ (numDigits N : ℤ) := F2
      _ = 10 ^ ((numDigits N : ℤ) - (numDigits D : ℤ) + 1)
            * 10 ^ ((numDigits D : ℤ) - 1) := by
          rw [← zpow_add₀ (by norm_num : (10:ℚ) ≠ 0)]; congr 1; ring
      _ ≤ 10 ^ ((numDigits N : ℤ) - (numDigits D : ℤ) + 1) * (D : ℚ) := by
          exact mul_le_mul_of_nonneg_left F3 (le_of_lt (hp _))

theorem intLog10_spec (q : ℚ) (hq : 0 < q) :
    (10:ℚ) ^ intLog10 q ≤ q ∧ q < 10 ^ (intLog10 q + 1) := by
  have hnum : 0 < q.num := Rat.num_pos.mpr hq
  have hN : 0 < q.num.toNat := by omega
  have hD : 0 < q.den := q.pos
  have hcast : ((q.num.toNat : ℚ)) = ((q.num : ℤ) : ℚ) := by
    exact_mod_cast Int.toNat_of_nonneg (by omega : (0:ℤ) ≤ q.num)
  have hfrac : (q.num.toNat : ℚ) / (q.den : ℚ) = q := by
    rw [hcast]; exact Rat.num_div_den q
  obtain ⟨lower, upper⟩ := div_digit_bounds q.num.toNat q.den hN hD
  rw [hfrac] at lower upper
  unfold intLog10
  split_ifs with hc
  · exact ⟨hc, upper⟩
  · refine ⟨le_of_lt lower, ?_⟩
    have h2 := lt_of_not_le hc
    convert h2 using 2
    ring

theorem intLog10_eq_of (q : ℚ) (e : ℤ) (h1 : (10:ℚ) ^ e ≤ q) (h2 : q < 10 ^ (e + 1)) :
    intLog10 q = e := by
  have hq : 0 < q := lt_of_lt_of_le (zpow_pos (by norm_num) e) h1
  obtain ⟨s1, s2⟩ := intLog10_spec q hq
  by_contra hne
  rcases lt_or_gt_of_ne hne with hlt | hgt
  · have : (10:ℚ) ^ (intLog10 q + 1) ≤ 10 ^ e :=
      zpow_le_zpow_right₀ (by norm_num) (by omega)
    linarith
  · have : (10:ℚ) ^ (e + 1) ≤ 10 ^ (intLog10 q) :=
      zpow_le_zpow_right₀ (by norm_num) (by omega)
    linarith

theorem intLog10_mono {x y : ℚ} (hx : 0 < x) (h : x ≤ y) :
    intLog10 x ≤ intLog10 y := by
  have hy : 0 < y := lt_of_lt_of_le hx h
  obtain ⟨sx1, sx2⟩ := intLog10_spec x hx
  obtain ⟨sy1, sy2⟩ := intLog10_spec y hy
  by_contra hc
  have : (10:ℚ) ^ (intLog10 y + 1) ≤ 10 ^ (intLog10 x) :=
    zpow_le_zpow_right₀ (by norm_num) (by omega)
  linarith

/-- The 6-significant-digit mantissa (in `[10^5, 10^6)`) and decimal
exponent of a positive rational; `(m, e)` stands for `m * 10^(e-5)`. -/
def mantissaExp (q : ℚ) : ℕ × ℤ :=
  if (rhe (q / 10 ^ (intLog10 q - 5))).toNat = 10 ^ 6 then (10 ^ 5, intLog10 q + 1)
  else ((rhe (q / 10 ^ (intLog10 q - 5))).toNat, intLog10 q)

theorem shift_pow_five (e : ℤ) : ((10 ^ 5 : ℤ) : ℚ) * 10 ^ (e - 5) = 10 ^ e := by
  have h5 : ((10 ^ 5 : ℤ) : ℚ) = (10:ℚ) ^ ((5:ℤ)) := by norm_num
  rw [h5, ← zpow_add₀ (by norm_num : (10:ℚ) ≠ 0)]
  congr 1; ring

theorem shift_pow_six (e : ℤ) : ((10 ^ 6 : ℤ) : ℚ) * 10 ^ (e - 5) = 10 ^ (e + 1) := by
  have h6 : ((10 ^ 6 : ℤ) : ℚ) = (10:ℚ) ^ ((6:ℤ)) := by norm_num
  rw [h6, ← zpow_add₀ (by norm_num : (10:ℚ) ≠ 0)]
  congr 1; ring

theorem mantissa_raw_bounds (q : ℚ) (hq : 0 < q) :
    10 ^ 5 ≤ rhe (q / 10 ^ (intLog10 q - 5)) ∧
      rhe (q / 10 ^ (intLog10 q - 5)) ≤ 10 ^ 6 := by
  obtain ⟨s1, s2⟩ := intLog10_spec q hq
  have hp : (0:ℚ) < 10 ^ (intLog10 q - 5) := zpow_pos (by norm_num) _
  have hlb : ((10 ^ 5 : ℤ) : ℚ) ≤ q / 10 ^ (intLog10 q - 5) := by
    rw [le_div_iff hp]
    calc ((10 ^ 5 : ℤ) : ℚ) * 10 ^ (intLog10 q - 5) = 10 ^ (intLog10 q) :=
          shift_pow_five _
      _ ≤ q := s1
  have hub : q / 10 ^ (intLog10 q - 5) < ((10 ^ 6 : ℤ) : ℚ) := by
    rw [div_lt_iff hp]
    calc q < 10 ^ (intLog10 q + 1) := s2
      _ = ((10 ^ 6 : ℤ) : ℚ) * 10 ^ (intLog10 q - 5) := (shift_pow_six _).symm
  exact ⟨intCast_le_rhe hlb, rhe_le_of_lt hub⟩

theorem mantissaExp_bounds (q : ℚ) (hq : 0 < q) :
    10 ^ 5 ≤ (mantissaExp q).1 ∧ (mantissaExp q).1 < 10 ^ 6 := by
  obtain ⟨b1, b2⟩ := mantissa_raw_bounds q hq
  norm_num at b1 b2
  unfold mantissaExp
  split_ifs with h
  · norm_num
  · norm_num at h ⊢
    omega

theorem mantissaExp_value (q : ℚ) (hq : 0 < q) :
    ((mantissaExp q).1 : ℚ) * 10 ^ ((mantissaExp q).2 - 5)
      = (rhe (q / 10 ^ (intLog10 q - 5)) : ℚ) * 10 ^ (intLog10 q - 5) := by
  obtain ⟨b1, b2⟩ := mantissa_raw_bounds q hq
  unfold mantissaExp
  split_ifs with h
  · simp only
    have hv : (rhe (q / 10 ^ (intLog10 q - 5)) : ℚ) = ((10 ^ 6 : ℤ) : ℚ) := by
      have heq : rhe (q / 10 ^ (intLog10 q - 5)) = (10 ^ 6 : ℤ) := by omega
      exact_mod_cast congrArg Int.cast heq
    rw [hv, shift_pow_six]
    have h5 : (((10 ^ 5 : ℕ) : ℚ)) = ((10 ^ 5 : ℤ) : ℚ) := by norm_num
    rw [h5]
    exact shift_pow_five _
  · simp only
    congr 1
    have hnn : (0:ℤ) ≤ rhe (q / 10 ^ (intLog10 q - 5)) := by omega
    exact_mod_cast congrArg Int.cast (Int.toNat_of_nonneg hnn)

/-- A rational rounded to 6 significant decimal digits. -/
def round6 (q : ℚ) : ℚ :=
  if q = 0 then 0
  else if q < 0 then -(((mantissaExp (-q)).1 : ℚ) * 10 ^ ((mantissaExp (-q)).2 - 5))
  else ((mantissaExp q).1 : ℚ) * 10 ^ ((mantissaExp q).2 - 5)

theorem round6_zero : round6 0 = 0 := by simp [round6]

theorem round6_pos_eq (q : ℚ) (hq : 0 < q) :
    round6 q = (rhe (q / 10 ^ (intLog10 q - 5)) : ℚ) * 10 ^ (intLog10 q - 5) := by
  rw [round6, if_neg (ne_of_gt hq), if_neg (not_lt.mpr hq.le)]
  exact mantissaExp_value q hq

theorem round6_pos_bounds (q : ℚ) (hq : 0 < q) :
    (10:ℚ) ^ (intLog10 q) ≤ round6 q ∧ round6 q ≤ 10 ^ (intLog10 q + 1) := by
  obtain ⟨b1, b2⟩ := mantissa_raw_bounds q hq
  rw [round6_pos_eq q hq]
  have hp : (0:ℚ) < 10 ^ (intLog10 q - 5) := zpow_pos (by norm_num) _
  have c1 : ((10 ^ 5 : ℤ) : ℚ) ≤ (rhe (q / 10 ^ (intLog10 q - 5)) : ℚ) := by exact_mod_cast b1
  have c2 : (rhe (q / 10 ^ (intLog10 q - 5)) : ℚ) ≤ ((10 ^ 6 : ℤ) : ℚ) := by exact_mod_cast b2
  have e1 : ((10 ^ 5 : ℤ) : ℚ) * 10 ^ (intLog10 q - 5) = (10:ℚ) ^ (intLog10 q) :=
    shift_pow_five _
  have e2 : ((10 ^ 6 : ℤ) : ℚ) * 10 ^ (intLog10 q - 5) = (10:ℚ) ^ (intLog10 q + 1) :=
    shift_pow_six _
  constructor
  · rw [← e1]; exact mul_le_mul_of_nonneg_right c1 (le_of_lt hp)
  · rw [← e2]; exact mul_le_mul_of_nonneg_right c2 (le_of_lt hp)

theorem round6_nonneg (q : ℚ) (hq : 0 ≤ q) : 0 ≤ round6 q := by
  rcases eq_or_lt_of_le hq with h | h
  · rw [← h, round6_zero]
  · obtain ⟨b1, _⟩ := round6_pos_bounds q h
    have := zpow_pos (show (0:ℚ) < 10 by norm_num) (intLog10 q)
    linarith

/-! ## Character-level rendering (`%.6g`) and parsing (`float()`) -/

/-- Strip factors of 10 from `m`: `(core, count)` with
`core * 10 ^ count = m` (fuel 6 suffices for a 6-digit mantissa). -/
def stripZ : ℕ → ℕ → ℕ × ℕ
  | 0, m => (m, 0)
  | fuel + 1, m =>
    if m ≠ 0 ∧ m % 10 = 0 then
      ((stripZ fuel (m / 10)).1, (stripZ fuel (m / 10)).2 + 1)
    else (m, 0)

theorem stripZ_cons_eq {fuel m : ℕ} (h : m ≠ 0 ∧ m % 10 = 0) :
    stripZ (fuel + 1) m = ((stripZ fuel (m / 10)).1, (stripZ fuel (m / 10)).2 + 1) := by
  simp only [stripZ, if_pos h]

theorem stripZ_stop_eq {fuel m : ℕ} (h : ¬(m ≠ 0 ∧ m % 10 = 0)) :
    stripZ (fuel + 1) m = (m, 0) := by
  simp only [stripZ, if_neg h]

theorem stripZ_spec (fuel : ℕ) : ∀ m : ℕ,
    (stripZ fuel m).1 * 10 ^ (stripZ fuel m).2 = m := by
  induction fuel with
  | zero => intro m; simp [stripZ]
  | succ fuel ih =>
    intro m
    by_cases h : m ≠ 0 ∧ m % 10 = 0
    · rw [stripZ_cons_eq h]
      simp only
      have hv := ih (m / 10)
      rw [pow_succ, ← mul_assoc, hv]
      omega
    · rw [stripZ_stop_eq h]
      simp

theorem stripZ_pos (fuel : ℕ) : ∀ m : ℕ, 0 < m → 0 < (stripZ fuel m).1 := by
  induction fuel with
  | zero => intro m hm; simpa [stripZ] using hm
  | succ fuel ih =>
    intro m hm
    by_cases h : m ≠ 0 ∧ m % 10 = 0
    · rw [stripZ_cons_eq h]
      exact ih (m / 10) (by omega)
    · rw [stripZ_stop_eq h]
      exact hm

/-- The digit list of a `%g` exponent, left-padded to at least two digits. -/
def padList (n : ℕ) : List ℕ :=
  if (natDigitsBE n).length < 2 then 0 :: natDigitsBE n else natDigitsBE n

def pad2 (n : ℕ) : List Char := (padList n).map digitChar

theorem ofDigitsBE_padList (n : ℕ) : ofDigitsBE (padList n) = n := by
  unfold padList
  split_ifs
  · rw [ofDigitsBE_cons_zero, ofDigitsBE_natDigitsBE]
  · rw [ofDigitsBE_natDigitsBE]

theorem padList_lt_ten (n : ℕ) : ∀ d ∈ padList n, d < 10 := by
  intro d hd
  unfold padList at hd
  split_ifs at hd
  · simp only [List.mem_cons] at hd
    rcases hd with h | h
    · omega
    · exact natDigitsBE_lt_ten n d h
  · exact natDigitsBE_lt_ten n d hd

theorem padList_ne_nil (n : ℕ) : padList n ≠ [] := by
  unfold padList
  split_ifs with h
  · simp
  · intro hc
    rw [hc] at h
    simp at h

/-- The character content of `%.6g` for a given stripped digit list `ds`
(most significant first, no trailing zeros) and leading-digit exponent `E`:
fixed-point notation when `-4 ≤ E < 6`, scientific otherwise. -/
def fmtCore (ds : List ℕ) (E : ℤ) : List Char :=
  if -4 ≤ E ∧ E < 6 then
    if (ds.length : ℤ) - 1 ≤ E then
      ds.map digitChar ++ List.replicate (E - ((ds.length : ℤ) - 1)).toNat '0'
    else if 0 ≤ E then
      (ds.take (E.toNat + 1)).map digitChar
        ++ '.' :: (ds.drop (E.toNat + 1)).map digitChar
    else '0' :: '.' :: (List.replicate (-E - 1).toNat '0' ++ ds.map digitChar)
  else
    (match ds with
      | [] => []
      | d0 :: rest =>
        digitChar d0 :: (if rest.isEmpty then [] else '.' :: rest.map digitChar))
      ++ 'e' :: (if E < 0 then '-' else '+') :: pad2 E.natAbs

/-- Render a positive rational in Python's `%.6g` format. -/
def fmtPos (q : ℚ) : List Char :=
  fmtCore (natDigitsBE (stripZ 6 (mantissaExp q).1).1) (mantissaExp q).2

/-- Python `f"{x:.6g}"` of a rational. -/
def fmtG6 (q : ℚ) : List Char :=
  if q = 0 then ['0']
  else if q < 0 then '-' :: fmtPos (-q)
  else fmtPos q

/-- Consume a maximal prefix of decimal digit characters. -/
def readDigits : List Char → List ℕ × List Char
  | [] => ([], [])
  | c :: cs =>
    if c.isDigit then (digitVal c :: (readDigits cs).1, (readDigits cs).2)
    else ([], c :: cs)

/-- The exponent digits of a float literal: at least one digit and nothing
after them; yields `v` scaled by the signed power of ten. -/
def expTail (v : ℚ) (sgn : ℤ) (t : List Char) : Option ℚ :=
  if (readDigits t).1 = [] ∨ (readDigits t).2 ≠ [] then none
  else some (v * 10 ^ (sgn * (ofDigitsBE (readDigits t).1 : ℤ)))

/-- The optionally signed exponent body after `e`/`E`. -/
def applyExpCons (v : ℚ) (c2 : Char) (t2 : List Char) : Option ℚ :=
  if c2 = '+' then expTail v 1 t2
  else if c2 = '-' then expTail v (-1) t2
  else expTail v 1 (c2 :: t2)

/-- Handle the optional exponent suffix of a float literal. -/
def applyExp (v : ℚ) : List Char → Option ℚ
  | [] => some v
  | [c] => if c = 'e' ∨ c = 'E' then expTail v 1 [] else none
  | c :: c2 :: t2 => if c = 'e' ∨ c = 'E' then applyExpCons v c2 t2 else none

/-- The continuation after the leading digit run of a float literal:
an optional decimal point with its digits, then an optional exponent. -/
def parseUnsignedAux (ds1 : List ℕ) : List Char → Option ℚ
  | [] => if ds1 = [] then none else some ((ofDigitsBE ds1 : ℚ))
  | c :: r2 =>
    if c = '.' then
      if ds1 = [] ∧ (readDigits r2).1 = [] then none
      else
        applyExp ((ofDigitsBE ds1 : ℚ)
            + (ofDigitsBE (readDigits r2).1 : ℚ) / 10 ^ (readDigits r2).1.length)
          (readDigits r2).2
    else if ds1 = [] then none
    else applyExp ((ofDigitsBE ds1 : ℚ)) (c :: r2)

/-- The unsigned part of a float literal: digits with an optional decimal
point (at least one digit overall), then an optional exponent. -/
def parseUnsigned (cs : List Char) : Option ℚ :=
  parseUnsignedAux (readDigits cs).1 (readDigits cs).2

/-- Python `float(tok)` on finite decimal/scientific literals.  (Infinities,
NaN, underscores and surrounding whitespace are outside the rational model;
no token the program itself produces contains them.) -/
def parseFloat (cs : List Char) : Option ℚ :=
  if cs.head? = some '+' then parseUnsigned cs.tail
  else if cs.head? = some '-' then (parseUnsigned cs.tail).map (fun v => -v)
  else parseUnsigned cs

/-- `true` when the list does not begin with a digit character. -/
def headNotDigit : List Char → Bool
  | [] => true
  | c :: _ => !c.isDigit

theorem readDigits_exact (l : List ℕ) (rest : List Char) (hl : ∀ d ∈ l, d < 10)
    (hrest : headNotDigit rest = true) :
    readDigits (l.map digitChar ++ rest) = (l, rest) := by
  induction l with
  | nil =>
    cases rest with
    | nil => rfl
    | cons c cs =>
      simp only [List.map_nil, List.nil_append, readDigits]
      unfold headNotDigit at hrest
      simp only [Bool.not_eq_true'] at hrest
      rw [if_neg (by simp [hrest])]
  | cons d t ih =>
    have hd10 : d < 10 := hl d (by simp)
    simp only [List.map_cons, List.cons_append, readDigits]
    rw [if_pos (isDigit_digitChar d hd10)]
    have hx : readDigits ((List.map digitChar t).append rest) = (t, rest) :=
      ih (fun x hxm => hl x (by simp [hxm]))
    rw [hx, digitVal_digitChar d hd10]

theorem readDigits_map (l : List ℕ) (hl : ∀ d ∈ l, d < 10) :
    readDigits (l.map digitChar) = (l, []) := by
  have := readDigits_exact l [] hl rfl
  simpa using this

theorem digitChar_zero_eq : digitChar 0 = '0' := by decide

theorem headNotDigit_cons (c : Char) (l : List Char) (h : c.isDigit = false) :
    headNotDigit (c :: l) = true := by
  simp [headNotDigit, h]

theorem expTail_pad (v : ℚ) (sgn : ℤ) (n : ℕ) :
    expTail v sgn (pad2 n) = some (v * 10 ^ (sgn * (n : ℤ))) := by
  have hrd : readDigits (pad2 n) = (padList n, []) := by
    have h := readDigits_map (padList n) (padList_lt_ten _)
    simpa [pad2] using h
  unfold expTail
  rw [hrd]
  simp only [ne_eq]
  rw [if_neg (by simp [padList_ne_nil]), ofDigitsBE_padList]

theorem applyExp_pad (v : ℚ) (E : ℤ) :
    applyExp v ('e' :: (if E < 0 then '-' else '+') :: pad2 E.natAbs)
      = some (v * 10 ^ E) := by
  by_cases hE : E < 0
  · rw [if_pos hE]
    have h1 : applyExp v ('e' :: '-' :: pad2 E.natAbs)
        = applyExpCons v '-' (pad2 E.natAbs) := by
      simp only [applyExp]
      rw [if_pos (by simp)]
    rw [h1]
    unfold applyExpCons
    rw [if_neg (by decide), if_pos rfl, expTail_pad]
    have hs : (-1 : ℤ) * (E.natAbs : ℤ) = E := by omega
    rw [hs]
  · rw [if_neg hE]
    have h1 : applyExp v ('e' :: '+' :: pad2 E.natAbs)
        = applyExpCons v '+' (pad2 E.natAbs) := by
      simp only [applyExp]
      rw [if_pos (by simp)]
    rw [h1]
    unfold applyExpCons
    rw [if_pos rfl, expTail_pad]
    have hs : (1 : ℤ) * (E.natAbs : ℤ) = E := by omega
    rw [hs]

theorem parseUnsigned_eq (cs : List Char) (ds : List ℕ) (r : List Char)
    (h : readDigits cs = (ds, r)) : parseUnsigned cs = parseUnsignedAux ds r := by
  unfold parseUnsigned
  rw [h]

theorem parse_fixed_int (ds : List ℕ) (z : ℕ) (hne : ds ≠ [])
    (hd : ∀ d ∈ ds, d < 10) :
    parseUnsigned (ds.map digitChar ++ List.replicate z '0')
      = some (((ofDigitsBE ds * 10 ^ z : ℕ) : ℚ)) := by
  have hall : ∀ d ∈ ds ++ List.replicate z 0, d < 10 := by
    intro d hmem
    rcases List.mem_append.mp hmem with h | h
    · exact hd d h
    · have := List.eq_of_mem_replicate h
      omega
  have hchars : ds.map digitChar ++ List.replicate z '0'
      = (ds ++ List.replicate z 0).map digitChar := by
    rw [List.map_append, List.map_replicate, digitChar_zero_eq]
  rw [hchars]
  have hrd := readDigits_map _ hall
  rw [parseUnsigned_eq _ _ _ hrd]
  rw [parseUnsignedAux.eq_1]
  rw [if_neg (by simp [hne]), ofDigitsBE_append_zeros]

theorem parse_fixed_point (A B : List ℕ) (hA : A ≠ [])
    (hdA : ∀ d ∈ A, d < 10) (hdB : ∀ d ∈ B, d < 10) :
    parseUnsigned (A.map digitChar ++ '.' :: B.map digitChar)
      = some ((ofDigitsBE A : ℚ) + (ofDigitsBE B : ℚ) / 10 ^ B.length) := by
  have hrd1 : readDigits (A.map digitChar ++ '.' :: B.map digitChar)
      = (A, '.' :: B.map digitChar) :=
    readDigits_exact A _ hdA (headNotDigit_cons _ _ (by decide))
  have hrd2 := readDigits_map B hdB
  rw [parseUnsigned_eq _ _ _ hrd1]
  rw [parseUnsignedAux.eq_2]
  rw [if_pos rfl, if_neg (by simp [hA]), hrd2]
  rfl

theorem parse_small (j : ℕ) (ds : List ℕ) (hd : ∀ d ∈ ds, d < 10) :
    parseUnsigned ('0' :: '.' :: (List.replicate j '0' ++ ds.map digitChar))
      = some ((ofDigitsBE ds : ℚ) / 10 ^ (j + ds.length)) := by
  have hall : ∀ d ∈ List.replicate j 0 ++ ds, d < 10 := by
    intro d hmem
    rcases List.mem_append.mp hmem with h | h
    · have := List.eq_of_mem_replicate h
      omega
    · exact hd d h
  have hchars : '0' :: '.' :: (List.replicate j '0' ++ ds.map digitChar)
      = ([0].map digitChar) ++ '.' :: ((List.replicate j 0 ++ ds).map digitChar) := by
    simp [List.map_append, List.map_replicate, digitChar_zero_eq]
  rw [hchars]
  have hrd1 : readDigits (([0].map digitChar) ++ '.' :: ((List.replicate j 0 ++ ds).map digitChar))
      = ([0], '.' :: ((List.replicate j 0 ++ ds).map digitChar)) :=
    readDigits_exact [0] _ (by simp) (headNotDigit_cons _ _ (by decide))
  have hrd2 := readDigits_map _ hall
  rw [parseUnsigned_eq _ _ _ hrd1]
  rw [parseUnsignedAux.eq_2]
  rw [if_pos rfl, if_neg (by simp), hrd2]
  have hv : ofDigitsBE (List.replicate j 0 ++ ds) = ofDigitsBE ds := by
    rw [ofDigitsBE_append, ofDigitsBE_replicate_zero]
    omega
  have h0 : ofDigitsBE [0] = 0 := by simp [ofDigitsBE]
  simp only [applyExp]
  rw [hv, h0]
  simp [List.length_append, List.length_replicate]

theorem parse_sci (d0 : ℕ) (rest : List ℕ) (E : ℤ) (hd0 : d0 < 10)
    (hdr : ∀ d ∈ rest, d < 10) :
    parseUnsigned ((digitChar d0
        :: (if rest.isEmpty then [] else '.' :: rest.map digitChar))
        ++ 'e' :: (if E < 0 then '-' else '+') :: pad2 E.natAbs)
      = some (((d0 : ℚ) + (ofDigitsBE rest : ℚ) / 10 ^ rest.length) * 10 ^ E) := by
  cases rest with
  | nil =>
    simp only [List.isEmpty_nil, if_true, List.cons_append, List.nil_append]
    have hchars : (digitChar d0 :: 'e' :: (if E < 0 then '-' else '+') :: pad2 E.natAbs)
        = ([d0].map digitChar) ++ ('e' :: (if E < 0 then '-' else '+') :: pad2 E.natAbs) := by
      simp
    rw [hchars]
    have hrd1 := readDigits_exact [d0] ('e' :: (if E < 0 then '-' else '+') :: pad2 E.natAbs)
      (by simpa using hd0) (headNotDigit_cons _ _ (by decide))
    rw [parseUnsigned_eq _ _ _ hrd1]
    rw [parseUnsignedAux.eq_2]
    rw [if_neg (by decide), if_neg (by simp), applyExp_pad]
    have h1 : (ofDigitsBE [d0] : ℚ) = (d0 : ℚ) := by simp [ofDigitsBE]
    rw [h1]
    congr 2
    simp [ofDigitsBE]
  | cons r rs =>
    rw [show (if (r :: rs).isEmpty then ([] : List Char)
          else '.' :: (r :: rs).map digitChar) = '.' :: (r :: rs).map digitChar by
      rw [if_neg (by simp)]]
    have hchars : (digitChar d0 :: '.' :: (r :: rs).map digitChar)
          ++ 'e' :: (if E < 0 then '-' else '+') :: pad2 E.natAbs
        = ([d0].map digitChar) ++ ('.' :: ((r :: rs).map digitChar
          ++ 'e' :: (if E < 0 then '-' else '+') :: pad2 E.natAbs)) := by
      simp
    rw [hchars]
    have hrd1 := readDigits_exact [d0]
      ('.' :: ((r :: rs).map digitChar ++ 'e' :: (if E < 0 then '-' else '+') :: pad2 E.natAbs))
      (by simpa using hd0) (headNotDigit_cons _ _ (by decide))
    have hrd2 := readDigits_exact (r :: rs)
      ('e' :: (if E < 0 then '-' else '+') :: pad2 E.natAbs) hdr (headNotDigit_cons _ _ (by decide))
    rw [parseUnsigned_eq _ _ _ hrd1]
    rw [parseUnsignedAux.eq_2]
    rw [if_pos rfl, if_neg (by simp), hrd2]
    show applyExp ((ofDigitsBE [d0] : ℚ)
        + (ofDigitsBE (r :: rs) : ℚ) / 10 ^ (r :: rs).length)
      ('e' :: (if E < 0 then '-' else '+') :: pad2 E.natAbs) = _
    rw [applyExp_pad]
    have h1 : (ofDigitsBE [d0] : ℚ) = (d0 : ℚ) := by simp [ofDigitsBE]
    rw [h1]

theorem ofDigitsBE_singleton (d : ℕ) : ofDigitsBE [d] = d := by
  simp [ofDigitsBE]

theorem natpow_cast_zpow (a z : ℕ) :
    ((a * 10 ^ z : ℕ) : ℚ) = (a : ℚ) * 10 ^ ((z : ℕ) : ℤ) := by
  push_cast
  rw [zpow_natCast]

theorem div_pow_eq_mul_zpow (a : ℚ) (n : ℕ) :
    a / 10 ^ n = a * 10 ^ (-((n : ℕ) : ℤ)) := by
  rw [zpow_neg, zpow_natCast, div_eq_mul_inv]

theorem natDigitsBE_ne_nil (n : ℕ) (h : 0 < n) : natDigitsBE n ≠ [] := by
  have hl := numDigits_pos n h
  rw [← natDigitsBE_length] at hl
  exact List.ne_nil_of_length_pos hl

theorem fixed_point_value (A B : List ℕ) (E : ℤ) (hE : E = (A.length : ℤ) - 1) :
    (ofDigitsBE A : ℚ) + (ofDigitsBE B : ℚ) / 10 ^ B.length
      = (ofDigitsBE (A ++ B) : ℚ) * 10 ^ (E - (((A ++ B).length : ℤ) - 1)) := by
  rw [ofDigitsBE_append, List.length_append]
  have hexp : E - (((A.length + B.length : ℕ) : ℤ) - 1) = -((B.length : ℕ) : ℤ) := by
    push_cast
    omega
  rw [hexp, zpow_neg, zpow_natCast]
  have h10 : ((10:ℚ) ^ (B.length : ℕ)) ≠ 0 := by positivity
  push_cast
  field_simp
  try ring

theorem sci_value (d0 : ℕ) (rest : List ℕ) (E : ℤ) :
    ((d0 : ℚ) + (ofDigitsBE rest : ℚ) / 10 ^ rest.length) * 10 ^ E
      = (ofDigitsBE (d0 :: rest) : ℚ) * 10 ^ (E - (((d0 :: rest).length : ℤ) - 1)) := by
  have hof : ofDigitsBE (d0 :: rest) = d0 * 10 ^ rest.length + ofDigitsBE rest := by
    have h := ofDigitsBE_append [d0] rest
    rw [ofDigitsBE_singleton] at h
    simpa using h
  have hexp : E - (((d0 :: rest).length : ℤ) - 1) = E - ((rest.length : ℕ) : ℤ) := by
    simp only [List.length_cons]
    push_cast
    ring
  rw [hof, hexp, zpow_sub₀ (by norm_num : (10:ℚ) ≠ 0), zpow_natCast]
  have h10 : ((10:ℚ) ^ (rest.length : ℕ)) ≠ 0 := by positivity
  push_cast
  field_simp
  try ring

theorem parseUnsigned_fmtCore (ds : List ℕ) (E : ℤ) (hne : ds ≠ [])
    (hd : ∀ d ∈ ds, d < 10) :
    parseUnsigned (fmtCore ds E)
      = some ((ofDigitsBE ds : ℚ) * 10 ^ (E - ((ds.length : ℤ) - 1))) := by
  unfold fmtCore
  by_cases hfix : -4 ≤ E ∧ E < 6
  · rw [if_pos hfix]
    by_cases hint : (ds.length : ℤ) - 1 ≤ E
    · rw [if_pos hint]
      rw [parse_fixed_int ds _ hne hd]
      have hz : (((E - ((ds.length : ℤ) - 1)).toNat : ℕ) : ℤ)
          = E - ((ds.length : ℤ) - 1) := Int.toNat_of_nonneg (by omega)
      rw [natpow_cast_zpow, hz]
    · rw [if_neg hint]
      by_cases hEnn : 0 ≤ E
      · rw [if_pos hEnn]
        have hDlen : E.toNat + 1 < ds.length := by omega
        have htake : (ds.take (E.toNat + 1)).length = E.toNat + 1 := by
          rw [List.length_take]
          omega
        have hAne : ds.take (E.toNat + 1) ≠ [] := by
          intro hc
          rw [hc] at htake
          simp at htake
        rw [parse_fixed_point (ds.take (E.toNat + 1)) (ds.drop (E.toNat + 1)) hAne
          (fun d hmem => hd d (List.mem_of_mem_take hmem))
          (fun d hmem => hd d (List.mem_of_mem_drop hmem))]
        congr 1
        have hAB := List.take_append_drop (E.toNat + 1) ds
        calc (ofDigitsBE (ds.take (E.toNat + 1)) : ℚ)
              + (ofDigitsBE (ds.drop (E.toNat + 1)) : ℚ) / 10 ^ (ds.drop (E.toNat + 1)).length
            = (ofDigitsBE (ds.take (E.toNat + 1) ++ ds.drop (E.toNat + 1)) : ℚ)
                * 10 ^ (E - (((ds.take (E.toNat + 1) ++ ds.drop (E.toNat + 1)).length : ℤ) - 1)) := by
              apply fixed_point_value
              rw [htake]
              omega
          _ = (ofDigitsBE ds : ℚ) * 10 ^ (E - ((ds.length : ℤ) - 1)) := by rw [hAB]
      · rw [if_neg hEnn]
        rw [parse_small _ _ hd]
        congr 1
        rw [div_pow_eq_mul_zpow]
        have he : -(((((-E - 1).toNat) + ds.length : ℕ)) : ℤ) = E - ((ds.length : ℤ) - 1) := by
          push_cast
          omega
        rw [he]
  · rw [if_neg hfix]
    obtain ⟨d0, rest, rfl⟩ : ∃ d0 rest, ds = d0 :: rest := by
      cases ds with
      | nil => exact absurd rfl hne
      | cons a t => exact ⟨a, t, rfl⟩
    show parseUnsigned ((digitChar d0
        :: (if rest.isEmpty then [] else '.' :: rest.map digitChar))
        ++ 'e' :: (if E < 0 then '-' else '+') :: pad2 E.natAbs)
      = some ((ofDigitsBE (d0 :: rest) : ℚ) * 10 ^ (E - (((d0 :: rest).length : ℤ) - 1)))
    rw [parse_sci d0 rest E (hd d0 (by simp)) (fun d hmem => hd d (by simp [hmem]))]
    rw [sci_value]

theorem round6_pos_def (q : ℚ) (hq : 0 < q) :
    round6 q = ((mantissaExp q).1 : ℚ) * 10 ^ ((mantissaExp q).2 - 5) := by
  rw [round6, if_neg (ne_of_gt hq), if_neg (not_lt.mpr hq.le)]

theorem parseUnsigned_fmtPos (q : ℚ) (hq : 0 < q) :
    parseUnsigned (fmtPos q) = some (round6 q) := by
  obtain ⟨hm1, hm2⟩ := mantissaExp_bounds q hq
  have hMpos : 0 < (mantissaExp q).1 := by positivity
  have hmkey := stripZ_spec 6 (mantissaExp q).1
  have hmpos := stripZ_pos 6 _ hMpos
  have hne := natDigitsBE_ne_nil _ hmpos
  unfold fmtPos
  rw [parseUnsigned_fmtCore _ _ hne (natDigitsBE_lt_ten _)]
  rw [ofDigitsBE_natDigitsBE, natDigitsBE_length]
  norm_num at hm1 hm2
  have h6 : numDigits (mantissaExp q).1 = 6 := by
    refine numDigits_eq_of_bounds _ 6 (by norm_num) ?_ ?_
    · calc (10:ℕ) ^ (6 - 1) = 100000 := by norm_num
        _ ≤ (mantissaExp q).1 := hm1
    · calc (mantissaExp q).1 < 1000000 := hm2
        _ = 10 ^ 6 := by norm_num
  have hnd : numDigits (stripZ 6 (mantissaExp q).1).1 + (stripZ 6 (mantissaExp q).1).2 = 6 := by
    have h := numDigits_mul_pow (stripZ 6 (mantissaExp q).1).1 (stripZ 6 (mantissaExp q).1).2 hmpos
    rw [hmkey] at h
    omega
  have hDpos : 0 < numDigits (stripZ 6 (mantissaExp q).1).1 := numDigits_pos _ hmpos
  rw [round6_pos_def q hq]
  have hMeq : ((mantissaExp q).1 : ℚ)
      = ((stripZ 6 (mantissaExp q).1).1 : ℚ)
        * 10 ^ ((((stripZ 6 (mantissaExp q).1).2 : ℕ)) : ℤ) := by
    rw [← natpow_cast_zpow]
    exact Nat.cast_inj.mpr hmkey.symm
  rw [hMeq, mul_assoc, ← zpow_add₀ (by norm_num : (10:ℚ) ≠ 0)]
  have hexp : (mantissaExp q).2 - ((numDigits (stripZ 6 (mantissaExp q).1).1 : ℤ) - 1)
      = (((stripZ 6 (mantissaExp q).1).2 : ℕ) : ℤ) + ((mantissaExp q).2 - 5) := by
    omega
  rw [hexp]

theorem round6_neg_eq (q : ℚ) (hq : q < 0) : round6 q = - round6 (-q) := by
  have hpos : 0 < -q := by linarith
  rw [round6, if_neg (ne_of_lt hq), if_pos hq, round6_pos_def (-q) hpos]

theorem isDigit_ne_plus {c : Char} (h : c.isDigit = true) : ¬ c = '+' := by
  intro he
  rw [he] at h
  exact absurd h (by decide)

theorem isDigit_ne_minus {c : Char} (h : c.isDigit = true) : ¬ c = '-' := by
  intro he
  rw [he] at h
  exact absurd h (by decide)

theorem fmtCore_head (ds : List ℕ) (E : ℤ) (hne : ds ≠ [])
    (hd : ∀ d ∈ ds, d < 10) :
    ∃ c l, fmtCore ds E = c :: l ∧ c.isDigit = true := by
  obtain ⟨d0, rest, rfl⟩ : ∃ d0 rest, ds = d0 :: rest := by
    cases ds with
    | nil => exact absurd rfl hne
    | cons a t => exact ⟨a, t, rfl⟩
  have hd0 : d0 < 10 := hd d0 (by simp)
  unfold fmtCore
  by_cases h1 : -4 ≤ E ∧ E < 6
  · rw [if_pos h1]
    by_cases h2 : (((d0 :: rest).length : ℕ) : ℤ) - 1 ≤ E
    · rw [if_pos h2]
      refine ⟨digitChar d0, List.map digitChar rest
          ++ List.replicate (E - ((((d0 :: rest).length : ℕ) : ℤ) - 1)).toNat '0', ?_,
        isDigit_digitChar d0 hd0⟩
      rw [List.map_cons, List.cons_append]
    · rw [if_neg h2]
      by_cases h3 : 0 ≤ E
      · rw [if_pos h3]
        refine ⟨digitChar d0, List.map digitChar (List.take E.toNat rest)
            ++ '.' :: List.map digitChar (List.drop (E.toNat + 1) (d0 :: rest)), ?_,
          isDigit_digitChar d0 hd0⟩
        rw [List.take_succ_cons, List.map_cons, List.cons_append]
      · rw [if_neg h3]
        exact ⟨'0', '.' :: (List.replicate (-E - 1).toNat '0'
          ++ List.map digitChar (d0 :: rest)), rfl, by decide⟩
  · rw [if_neg h1]
    refine ⟨digitChar d0, (if rest.isEmpty then [] else '.' :: List.map digitChar rest)
        ++ 'e' :: (if E < 0 then '-' else '+') :: pad2 E.natAbs, ?_,
      isDigit_digitChar d0 hd0⟩
    show (digitChar d0 :: (if rest.isEmpty then [] else '.' :: List.map digitChar rest))
        ++ 'e' :: (if E < 0 then '-' else '+') :: pad2 E.natAbs = _
    rw [List.cons_append]

theorem parseFloat_fmtG6 (q : ℚ) : parseFloat (fmtG6 q) = some (round6 q) := by
  rcases lt_trichotomy q 0 with hneg | h0 | hpos
  · rw [fmtG6, if_neg (ne_of_lt hneg), if_pos hneg]
    rw [parseFloat]
    rw [if_neg (by simp), if_pos (by simp)]
    simp only [List.tail_cons]
    rw [parseUnsigned_fmtPos (-q) (by linarith)]
    rw [round6_neg_eq q hneg]
    rfl
  · rw [h0, fmtG6, if_pos rfl, round6_zero]
    have hrd : readDigits ['0'] = ([0], []) := by
      have h := readDigits_map [0] (by simp)
      rw [List.map_cons, List.map_nil, digitChar_zero_eq] at h
      exact h
    rw [parseFloat, if_neg (by decide), if_neg (by decide)]
    rw [parseUnsigned_eq _ _ _ hrd, parseUnsignedAux.eq_1,
      if_neg (by simp), ofDigitsBE_singleton]
    norm_num
  · rw [fmtG6, if_neg (ne_of_gt hpos), if_neg (not_lt.mpr hpos.le)]
    obtain ⟨hm1, hm2⟩ := mantissaExp_bounds q hpos
    have hMpos : 0 < (mantissaExp q).1 := by positivity
    have hmpos := stripZ_pos 6 _ hMpos
    have hne := natDigitsBE_ne_nil _ hmpos
    obtain ⟨c, l, hcl, hcd⟩ := fmtCore_head (natDigitsBE (stripZ 6 (mantissaExp q).1).1)
      (mantissaExp q).2 hne (natDigitsBE_lt_ten _)
    have hfp : fmtPos q = c :: l := by
      unfold fmtPos
      exact hcl
    rw [hfp, parseFloat]
    rw [if_neg (by simp [isDigit_ne_plus hcd]), if_neg (by simp [isDigit_ne_minus hcd])]
    rw [← hfp, parseUnsigned_fmtPos q hpos]

theorem round6_mono {x y : ℚ} (hx : 0 ≤ x) (h : x ≤ y) :
    round6 x ≤ round6 y := by
  rcases eq_or_lt_of_le hx with hx0 | hx0
  · rw [← hx0, round6_zero]
    exact round6_nonneg y (le_trans hx h)
  · have hy : 0 < y := lt_of_lt_of_le hx0 h
    have hlog := intLog10_mono hx0 h
    rcases eq_or_lt_of_le hlog with heq | hlt
    · rw [round6_pos_eq x hx0, round6_pos_eq y hy, ← heq]
      have hp : (0:ℚ) < 10 ^ (intLog10 x - 5) := zpow_pos (by norm_num) _
      have hm : rhe (x / 10 ^ (intLog10 x - 5)) ≤ rhe (y / 10 ^ (intLog10 x - 5)) :=
        rhe_mono ((div_le_div_right hp).mpr h)
      exact mul_le_mul_of_nonneg_right (by exact_mod_cast hm) (le_of_lt hp)
    · obtain ⟨_, ub⟩ := round6_pos_bounds x hx0
      obtain ⟨lb, _⟩ := round6_pos_bounds y hy
      calc round6 x ≤ 10 ^ (intLog10 x + 1) := ub
        _ ≤ 10 ^ (intLog10 y) := zpow_le_zpow_right₀ (by norm_num) (by omega)
        _ ≤ round6 y := lb

/-! ## Whitespace splitting and stripping (Python `str.split()` / `str.strip()`) -/

/-- Accumulator-based splitting on whitespace runs, discarding empties. -/
def splitWsAux : List Char → List Char → List (List Char)
  | [], acc => if acc = [] then [] else [acc.reverse]
  | c :: cs, acc =>
    if c.isWhitespace then
      if acc = [] then splitWsAux cs []
      else acc.reverse :: splitWsAux cs []
    else splitWsAux cs (c :: acc)

/-- Python `str.split()` with no argument. -/
def splitWs (l : List Char) : List (List Char) := splitWsAux l []

/-- Python `str.strip()` with no argument (whitespace both ends). -/
def pstrip (l : List Char) : List Char :=
  ((l.dropWhile Char.isWhitespace).reverse.dropWhile Char.isWhitespace).reverse

/-- Python `" ".join` on a list of chunks. -/
def joinSp : List (List Char) → List Char
  | [] => []
  | [t] => t
  | t :: ts => t ++ ' ' :: joinSp ts

theorem splitWsAux_token (tok : List Char) (hws : ∀ c ∈ tok, c.isWhitespace = false) :
    ∀ rest acc, splitWsAux (tok ++ rest) acc = splitWsAux rest (tok.reverse ++ acc) := by
  induction tok with
  | nil => intro rest acc; simp
  | cons c t ih =>
    intro rest acc
    have hc : c.isWhitespace = false := hws c (by simp)
    simp only [List.cons_append, splitWsAux]
    rw [if_neg (by simp [hc])]
    have hx : splitWsAux (t.append rest) (c :: acc)
        = splitWsAux rest (t.reverse ++ (c :: acc)) :=
      ih (fun x hxm => hws x (by simp [hxm])) rest (c :: acc)
    rw [hx]
    congr 1
    simp

theorem splitWs_joinSp (toks : List (List Char)) (hne : toks ≠ [])
    (htok : ∀ t ∈ toks, t ≠ [] ∧ ∀ c ∈ t, c.isWhitespace = false) :
    splitWs (joinSp toks) = toks := by
  induction toks with
  | nil => exact absurd rfl hne
  | cons t ts ih =>
    obtain ⟨htne, htws⟩ := htok t (by simp)
    cases ts with
    | nil =>
      show splitWsAux (joinSp [t]) [] = [t]
      unfold joinSp
      rw [show (t : List Char) = t ++ [] by simp]
      rw [splitWsAux_token t htws [] []]
      unfold splitWsAux
      rw [if_neg (by simp [htne])]
      simp
    | cons t2 ts2 =>
      show splitWsAux (joinSp (t :: t2 :: ts2)) [] = t :: t2 :: ts2
      unfold joinSp
      rw [splitWsAux_token t htws (' ' :: joinSp (t2 :: ts2)) []]
      unfold splitWsAux
      rw [if_pos (by decide), if_neg (by simp [htne])]
      rw [List.append_nil, List.reverse_reverse]
      congr 1
      exact ih (by simp) (fun x hx => htok x (by simp [hx]))

theorem pstrip_eq_self (c1 : Char) (mid : List Char) (c2 : Char)
    (h1 : c1.isWhitespace = false) (h2 : c2.isWhitespace = false) :
    pstrip (c1 :: (mid ++ [c2])) = c1 :: (mid ++ [c2]) := by
  unfold pstrip
  rw [List.dropWhile_cons, if_neg (by simp [h1])]
  have hrev : (c1 :: (mid ++ [c2])).reverse = c2 :: (mid.reverse ++ [c1]) := by
    simp
  rw [hrev, List.dropWhile_cons, if_neg (by simp [h2]), ← hrev, List.reverse_reverse]

theorem ws_false_of_digit {c : Char} (h : c.isDigit = true) :
    c.isWhitespace = false := by
  cases hws : c.isWhitespace
  · rfl
  · unfold Char.isWhitespace at hws
    simp only [Bool.or_eq_true, decide_eq_true_eq] at hws
    rcases hws with ((h1 | h1) | h1) | h1 <;>
      (rw [h1] at h; exact absurd h (by decide))

theorem pad2_no_ws (n : ℕ) : ∀ c ∈ pad2 n, c.isWhitespace = false := by
  intro c hc
  obtain ⟨d, hdm, rfl⟩ := List.mem_map.mp hc
  exact ws_false_of_digit (isDigit_digitChar d (padList_lt_ten n d hdm))

theorem fmtCore_no_ws (ds : List ℕ) (E : ℤ) (hd : ∀ d ∈ ds, d < 10) :
    ∀ c ∈ fmtCore ds E, c.isWhitespace = false := by
  intro c hc
  unfold fmtCore at hc
  by_cases h1 : -4 ≤ E ∧ E < 6
  · rw [if_pos h1] at hc
    by_cases h2 : (ds.length : ℤ) - 1 ≤ E
    · rw [if_pos h2] at hc
      rcases List.mem_append.mp hc with h | h
      · obtain ⟨d, hdm, rfl⟩ := List.mem_map.mp h
        exact ws_false_of_digit (isDigit_digitChar d (hd d hdm))
      · rw [List.eq_of_mem_replicate h]; decide
    · rw [if_neg h2] at hc
      by_cases h3 : 0 ≤ E
      · rw [if_pos h3] at hc
        rcases List.mem_append.mp hc with h | h
        · obtain ⟨d, hdm, rfl⟩ := List.mem_map.mp h
          exact ws_false_of_digit (isDigit_digitChar d (hd d (List.mem_of_mem_take hdm)))
        · rcases List.mem_cons.mp h with h | h
          · rw [h]; decide
          · obtain ⟨d, hdm, rfl⟩ := List.mem_map.mp h
            exact ws_false_of_digit (isDigit_digitChar d (hd d (List.mem_of_mem_drop hdm)))
      · rw [if_neg h3] at hc
        rcases List.mem_cons.mp hc with h | h
        · rw [h]; decide
        · rcases List.mem_cons.mp h with h | h
          · rw [h]; decide
          · rcases List.mem_append.mp h with h | h
            · rw [List.eq_of_mem_replicate h]; decide
            · obtain ⟨d, hdm, rfl⟩ := List.mem_map.mp h
              exact ws_false_of_digit (isDigit_digitChar d (hd d hdm))
  · rw [if_neg h1] at hc
    rcases List.mem_append.mp hc with h | h
    · cases ds with
      | nil => simp at h
      | cons d0 rest =>
        rcases List.mem_cons.mp h with h | h
        · rw [h]; exact ws_false_of_digit (isDigit_digitChar d0 (hd d0 (by simp)))
        · by_cases hre : rest.isEmpty
          · rw [if_pos hre] at h; simp at h
          · rw [if_neg hre] at h
            rcases List.mem_cons.mp h with h | h
            · rw [h]; decide
            · obtain ⟨d, hdm, rfl⟩ := List.mem_map.mp h
              exact ws_false_of_digit (isDigit_digitChar d (hd d (by simp [hdm])))
    · rcases List.mem_cons.mp h with h | h
      · rw [h]; decide
      · rcases List.mem_cons.mp h with h | h
        · by_cases hE : E < 0
          · rw [if_pos hE] at h; rw [h]; decide
          · rw [if_neg hE] at h; rw [h]; decide
        · exact pad2_no_ws _ c h

theorem fmtG6_no_ws (q : ℚ) : ∀ c ∈ fmtG6 q, c.isWhitespace = false := by
  intro c hc
  unfold fmtG6 at hc
  by_cases h0 : q = 0
  · rw [if_pos h0] at hc
    rcases List.mem_singleton.mp hc with rfl
    decide
  · rw [if_neg h0] at hc
    by_cases hneg : q < 0
    · rw [if_pos hneg] at hc
      rcases List.mem_cons.mp hc with h | h
      · rw [h]; decide
      · exact fmtCore_no_ws _ _ (natDigitsBE_lt_ten _) c h
    · rw [if_neg hneg] at hc
      exact fmtCore_no_ws _ _ (natDigitsBE_lt_ten _) c hc

theorem fmtG6_ne_nil (q : ℚ) : fmtG6 q ≠ [] := by
  unfold fmtG6
  by_cases h0 : q = 0
  · rw [if_pos h0]; simp
  · rw [if_neg h0]
    by_cases hneg : q < 0
    · rw [if_pos hneg]; simp
    · rw [if_neg hneg]
      have hpos : 0 < q := lt_of_le_of_ne (not_lt.mp hneg) (Ne.symm h0)
      obtain ⟨hm1, hm2⟩ := mantissaExp_bounds q hpos
      have hMpos : 0 < (mantissaExp q).1 := by positivity
      obtain ⟨c, l, hcl, _⟩ := fmtCore_head (natDigitsBE (stripZ 6 (mantissaExp q).1).1)
        (mantissaExp q).2 (natDigitsBE_ne_nil _ (stripZ_pos 6 _ hMpos)) (natDigitsBE_lt_ten _)
      unfold fmtPos
      rw [hcl]
      simp

/-! ## The application model: `PWLTool`'s state and operations -/

/-- `self.time_prefixes`. -/
def time_prefixes : List (String × ℚ) :=
  [("fs", 1e-15), ("ps", 1e-12), ("ns", 1e-9), ("μs", 1e-6), ("ms", 1e-3), ("s", 1)]

/-- `self.voltage_prefixes`. -/
def voltage_prefixes : List (String × ℚ) :=
  [("μV", 1e-6), ("mV", 1e-3), ("V", 1), ("kV", 1e3)]

/-- `self.current_prefixes`. -/
def current_prefixes : List (String × ℚ) :=
  [("pA", 1e-12), ("nA", 1e-9), ("μA", 1e-6), ("mA", 1e-3), ("A", 1)]

/-- `dict[key]`; `none` models the `KeyError` the UI never triggers. -/
def lookupU : List (String × ℚ) → String → Option ℚ
  | [], _ => none
  | (s, v) :: rest, k => if s = k then some v else lookupU rest k

/-- The widget-independent mutable state of `PWLTool`. -/
structure PWLState where
  pwl_points : List (ℚ × ℚ)
  time_unit : String
  value_unit : String
  source_type : String
  x_min : ℚ
  x_max : ℚ
  y_min : ℚ
  y_max : ℚ
  selected_point : Option ℕ
  grid_snap_enabled : Bool
  time_grid_size : ℚ
  value_grid_size : ℚ

/-- The state `__init__` builds. -/
def initState : PWLState where
  pwl_points := [(0, 0), (1e-6, 0)]
  time_unit := "μs"
  value_unit := "mV"
  source_type := "Voltage"
  x_min := 0
  x_max := 10
  y_min := -5
  y_max := 5
  selected_point := none
  grid_snap_enabled := false
  time_grid_size := 1
  value_grid_size := 1

/-- `self.time_prefixes[self.time_unit]`. -/
def time_scale (s : PWLState) : Option ℚ := lookupU time_prefixes s.time_unit

/-- The value table selected by `source_type` (any string other than
`"Voltage"` takes the current table, as the `if/else` in the source does). -/
def value_scale (s : PWLState) : Option ℚ :=
  if s.source_type = "Voltage" then lookupU voltage_prefixes s.value_unit
  else lookupU current_prefixes s.value_unit

/-- `snap_to_grid`: round display coordinates to the nearest grid multiple
(Python `round` is round half to even) and clamp the snapped time at 0;
a no-op when snapping is off or a grid size is non-positive. -/
def snap_to_grid (s : PWLState) (time_display value_display : ℚ) : ℚ × ℚ :=
  if ¬ s.grid_snap_enabled then (time_display, value_display)
  else if s.time_grid_size ≤ 0 ∨ s.value_grid_size ≤ 0 then (time_display, value_display)
  else (max 0 ((rhe (time_display / s.time_grid_size) : ℚ) * s.time_grid_size),
    (rhe (value_display / s.value_grid_size) : ℚ) * s.value_grid_size)

/-- `min_offset` as computed inside `find_unique_time`, given the
looked-up time scale. -/
def min_offset (s : PWLState) (ts : ℚ) : ℚ :=
  if s.grid_snap_enabled ∧ 0 < s.time_grid_size then
    max (1e-6 * ts) (s.time_grid_size * ts * 1e-4)
  else 1e-6 * ts

/-- `existing_times`: every stored time except the excluded index. -/
def existing_times (pts : List (ℚ × ℚ)) (exclude : Option ℕ) : List ℚ :=
  (pts.enum.filter (fun p => exclude ≠ some p.1)).map (fun p => p.2.1)

/-- The inner duplicate test of `find_unique_time` (distance `< min_offset/2`). -/
def is_duplicate (existing : List ℚ) (mo cur : ℚ) : Bool :=
  existing.any (fun t => decide (|cur - t| < mo / 2))

/-- The probe loop of `find_unique_time`: `attempt` is the Python loop
index, `fuel` the remaining iterations (100 at the start), `cur` and `dir`
the `current_time` / `offset_direction` variables. -/
def fut_go (existing : List ℚ) (mo target : ℚ) : ℕ → ℕ → ℚ → ℤ → Option ℚ
  | _, 0, _, _ => none
  | attempt, fuel + 1, cur, dir =>
    if is_duplicate existing mo cur = false ∧ 0 ≤ cur then some cur
    else if 0 < dir then
      if target + mo * (attempt : ℚ) < 0 then
        fut_go existing mo target (attempt + 1) fuel target (-1)
      else fut_go existing mo target (attempt + 1) fuel (target + mo * (attempt : ℚ)) dir
    else
      if target - mo * (attempt : ℚ) < 0 then
        fut_go existing mo target (attempt + 1) fuel (target + mo * ((attempt : ℚ) + 1)) dir
      else fut_go existing mo target (attempt + 1) fuel (target - mo * (attempt : ℚ)) dir

/-- `find_unique_time` after the `min_offset` computation: the 100-probe
loop, then the documented fallbacks. -/
def find_unique_core (pts : List (ℚ × ℚ)) (mo target : ℚ) (exclude : Option ℕ) : ℚ :=
  match fut_go (existing_times pts exclude) mo target 0 100 target 1 with
  | some t => t
  | none =>
    match (existing_times pts exclude).max? with
    | some mx => mx + mo
    | none => max 0 target

/-- `find_unique_time` (`none` only on a unit-table `KeyError`). -/
def find_unique_time (s : PWLState) (target : ℚ) (exclude : Option ℕ) : Option ℚ :=
  (time_scale s).map (fun ts => find_unique_core s.pwl_points (min_offset s ts) target exclude)

/-- The linear scan of `add_point_at` computing the insertion index. -/
def insert_scan (ut : ℚ) : List (ℚ × ℚ) → ℕ
  | [] => 0
  | p :: rest => if ut > p.1 then insert_scan ut rest + 1 else 0

/-- The point `add_point_at` inserts: snapped display coordinates
converted to SI, the time clamped at 0 and made unique. -/
def added_point (s : PWLState) (ts vs : ℚ) (x y : Option ℚ) : ℚ × ℚ :=
  let snapped := snap_to_grid s (x.getD 0) (y.getD 0)
  let real_time := max 0 (snapped.1 * ts)
  let real_value := snapped.2 * vs
  (find_unique_core s.pwl_points (min_offset s ts) real_time none, real_value)

/-- The point list after `add_point_at`: the new point inserted at the
scanned position. -/
def added_pts (s : PWLState) (ts vs : ℚ) (x y : Option ℚ) : List (ℚ × ℚ) :=
  s.pwl_points.insertIdx (insert_scan (added_point s ts vs x y).1 s.pwl_points)
    (added_point s ts vs x y)

/-- `add_point_at(x, y)`: snap, convert to SI, clamp the time, resolve
uniqueness, and insert at the scanned position.  `event.xdata`/`ydata`
may be `None`, which the source replaces by 0. -/
def add_point_at (s : PWLState) (x y : Option ℚ) : Option PWLState :=
  match time_scale s, value_scale s with
  | some ts, some vs => some { s with pwl_points := added_pts s ts vs x y }
  | _, _ => none

/-- The point `move_point` writes over the selected index. -/
def moved_point (s : PWLState) (idx : ℕ) (ts vs : ℚ) (x y : Option ℚ) : ℚ × ℚ :=
  let snapped := snap_to_grid s (x.getD 0) (y.getD 0)
  let real_time := max 0 (snapped.1 * ts)
  let real_value := snapped.2 * vs
  (find_unique_core s.pwl_points (min_offset s ts) real_time (some idx), real_value)

/-- The point list after `move_point`: the selected slot overwritten,
then a full re-sort by time. -/
def moved_pts (s : PWLState) (idx : ℕ) (ts vs : ℚ) (x y : Option ℚ) : List (ℚ × ℚ) :=
  (s.pwl_points.set idx (moved_point s idx ts vs x y)).insertionSort
    (fun p q => p.1 ≤ q.1)

/-- The re-located selection after `move_point`: the first point within
`1e-12` of the moved point in both coordinates, the stale index when the
scan finds none (as the source's `for`/`break` does). -/
def moved_sel (s : PWLState) (idx : ℕ) (ts vs : ℚ) (x y : Option ℚ) : Option ℕ :=
  match (moved_pts s idx ts vs x y).findIdx? (fun p =>
      decide (|p.1 - (moved_point s idx ts vs x y).1| < 1e-12)
        && decide (|p.2 - (moved_point s idx ts vs x y).2| < 1e-12)) with
  | some i => some i
  | none => some idx

/-- `move_point(x, y)`: the `add_point_at` pipeline excluding the selected
index, then a full re-sort and re-location of the moved point.  Without a
selection the handler returns at once; a unit-table `KeyError` or an
out-of-range stale index yields `none`. -/
def move_point (s : PWLState) (x y : Option ℚ) : Option PWLState :=
  match s.selected_point, time_scale s, value_scale s with
  | none, _, _ => some s
  | some idx, some ts, some vs =>
    if idx < s.pwl_points.length then
      some { s with
        pwl_points := (moved_pts s idx ts vs x y)
        selected_point := (moved_sel s idx ts vs x y) }
    else none
  | some _, _, _ => none

inductive DeleteOutcome where
  | deleted
  | noSelection
  | minimumPoints
deriving DecidableEq

/-- `delete_point`: refuse below 3 points, warn on no selection; the
branch order of the source gives `noSelection` priority when nothing is
selected, even at the 2-point floor. -/
def delete_point (s : PWLState) : PWLState × DeleteOutcome :=
  match s.selected_point with
  | some idx =>
    if 2 < s.pwl_points.length then
      ({ s with pwl_points := s.pwl_points.eraseIdx idx, selected_point := none },
        DeleteOutcome.deleted)
    else (s, DeleteOutcome.minimumPoints)
  | none => (s, DeleteOutcome.noSelection)

/-- `update_range`: adopt the four spinbox values, clamping only `x_min`
at 0 (`x_max` is not adjusted). -/
def update_range (s : PWLState) (xm xM ym yM : ℚ) : PWLState :=
  { s with x_min := max 0 xm, x_max := xM, y_min := ym, y_max := yM }

/-- `zoom_in`: half the span around the center, then `update_range`. -/
def zoom_in (s : PWLState) : PWLState :=
  update_range s ((s.x_min + s.x_max) / 2 - (s.x_max - s.x_min) * 0.25)
    ((s.x_min + s.x_max) / 2 + (s.x_max - s.x_min) * 0.25)
    ((s.y_min + s.y_max) / 2 - (s.y_max - s.y_min) * 0.25)
    ((s.y_min + s.y_max) / 2 + (s.y_max - s.y_min) * 0.25)

/-- `zoom_out`: double the span around the center, then `update_range`
(no pre-clamping of the negative overshoot). -/
def zoom_out (s : PWLState) : PWLState :=
  update_range s ((s.x_min + s.x_max) / 2 - (s.x_max - s.x_min) * 1)
    ((s.x_min + s.x_max) / 2 + (s.x_max - s.x_min) * 1)
    ((s.y_min + s.y_max) / 2 - (s.y_max - s.y_min) * 1)
    ((s.y_min + s.y_max) / 2 + (s.y_max - s.y_min) * 1)

/-- `pan_left`: shift left by a quarter span, shifting the whole window
right when the new minimum would go negative. -/
def pan_left (s : PWLState) : PWLState :=
  if s.x_min - (s.x_max - s.x_min) * 0.25 < 0 then
    update_range s 0
      ((s.x_max - (s.x_max - s.x_min) * 0.25) - (s.x_min - (s.x_max - s.x_min) * 0.25))
      s.y_min s.y_max
  else
    update_range s (s.x_min - (s.x_max - s.x_min) * 0.25)
      (s.x_max - (s.x_max - s.x_min) * 0.25) s.y_min s.y_max

def pan_right (s : PWLState) : PWLState :=
  update_range s (s.x_min + (s.x_max - s.x_min) * 0.25)
    (s.x_max + (s.x_max - s.x_min) * 0.25) s.y_min s.y_max

def pan_up (s : PWLState) : PWLState :=
  update_range s s.x_min s.x_max (s.y_min + (s.y_max - s.y_min) * 0.25)
    (s.y_max + (s.y_max - s.y_min) * 0.25)

def pan_down (s : PWLState) : PWLState :=
  update_range s s.x_min s.x_max (s.y_min - (s.y_max - s.y_min) * 0.25)
    (s.y_max - (s.y_max - s.y_min) * 0.25)

inductive ScrollKey where
  | control
  | shift
deriving DecidableEq

/-- `on_scroll`: wheel zoom recomputing the half-span around the cursor
(`0.9` up / `1.1` down), restricted to one axis by Ctrl (value axis) or
Shift (time axis), with the time minimum clamp shifting the window. -/
def on_scroll (s : PWLState) (x_center y_center : ℚ) (up : Bool)
    (key : Option ScrollKey) : PWLState :=
  match key with
  | some ScrollKey.control =>
    update_range s s.x_min s.x_max
      (y_center - (s.y_max - s.y_min) * (if up then (0.9:ℚ) else 1.1) / 2)
      (y_center + (s.y_max - s.y_min) * (if up then (0.9:ℚ) else 1.1) / 2)
  | some ScrollKey.shift =>
    if x_center - (s.x_max - s.x_min) * (if up then (0.9:ℚ) else 1.1) / 2 < 0 then
      update_range s 0
        ((x_center + (s.x_max - s.x_min) * (if up then (0.9:ℚ) else 1.1) / 2)
          - (x_center - (s.x_max - s.x_min) * (if up then (0.9:ℚ) else 1.1) / 2))
        s.y_min s.y_max
    else
      update_range s
        (x_center - (s.x_max - s.x_min) * (if up then (0.9:ℚ) else 1.1) / 2)
        (x_center + (s.x_max - s.x_min) * (if up then (0.9:ℚ) else 1.1) / 2)
        s.y_min s.y_max
  | none =>
    if x_center - (s.x_max - s.x_min) * (if up then (0.9:ℚ) else 1.1) / 2 < 0 then
      update_range s 0
        ((x_center + (s.x_max - s.x_min) * (if up then (0.9:ℚ) else 1.1) / 2)
          - (x_center - (s.x_max - s.x_min) * (if up then (0.9:ℚ) else 1.1) / 2))
        (y_center - (s.y_max - s.y_min) * (if up then (0.9:ℚ) else 1.1) / 2)
        (y_center + (s.y_max - s.y_min) * (if up then (0.9:ℚ) else 1.1) / 2)
    else
      update_range s
        (x_center - (s.x_max - s.x_min) * (if up then (0.9:ℚ) else 1.1) / 2)
        (x_center + (s.x_max - s.x_min) * (if up then (0.9:ℚ) else 1.1) / 2)
        (y_center - (s.y_max - s.y_min) * (if up then (0.9:ℚ) else 1.1) / 2)
        (y_center + (s.y_max - s.y_min) * (if up then (0.9:ℚ) else 1.1) / 2)

/-- `on_unit_change`: adopt the two combobox selections and redraw;
nothing else in the state changes. -/
def on_unit_change (s : PWLState) (tu vu : String) : PWLState :=
  { s with time_unit := tu, value_unit := vu }

/-- `on_source_type_change`: re-validate `value_unit` against the table
of the (already updated) source type. -/
def on_source_type_change (s : PWLState) : PWLState :=
  if s.source_type = "Voltage" then
    if lookupU voltage_prefixes s.value_unit = none then { s with value_unit := "mV" }
    else s
  else
    if lookupU current_prefixes s.value_unit = none then { s with value_unit := "mA" }
    else s

/-- `snap_all_points_to_grid`: display-convert, snap, convert back, and
re-sort every point (no-op when snapping is off; `none` on `KeyError`). -/
def snap_all_points_to_grid (s : PWLState) : Option PWLState :=
  if ¬ s.grid_snap_enabled then some s
  else
    match time_scale s, value_scale s with
    | some ts, some vs =>
      some { s with pwl_points :=
        ((s.pwl_points.map (fun p =>
          ((snap_to_grid s (p.1 / ts) (p.2 / vs)).1 * ts,
            (snap_to_grid s (p.1 / ts) (p.2 / vs)).2 * vs))).insertionSort
          (fun p q => p.1 ≤ q.1)) }
    | _, _ => none

/-! ## The Text Codec -/

/-- The `f"{t:.6g} {v:.6g}"` pairs, flattened into a token list. -/
def pointTokens : List (ℚ × ℚ) → List (List Char)
  | [] => []
  | p :: rest => fmtG6 p.1 :: fmtG6 p.2 :: pointTokens rest

def needAtLeast : String := "Need at least 2 points"

/-- The `pwl_cmd` string computed by `generate_pwl_text` (the widget
write-back is UI work; `source_name` in the source is computed but never
used in the string). -/
def generate_pwl_text (s : PWLState) : String :=
  if s.pwl_points.length < 2 then needAtLeast
  else String.mk ("PWL(".toList
    ++ joinSp (pointTokens (s.pwl_points.insertionSort (fun p q => p.1 ≤ q.1))) ++ [')'])

/-- The pairwise `float()` parsing loop of `parse_pwl_text`, clamping
negative times to 0; `none` models the early `return` on `ValueError`. -/
def parsePairs : List (List Char) → Option (List (ℚ × ℚ))
  | [] => some []
  | t :: v :: rest =>
    match parseFloat t, parseFloat v, parsePairs rest with
    | some tv, some vv, some ps => some ((if tv < 0 then 0 else tv, vv) :: ps)
    | _, _, _ => none
  | _ :: [] => none

/-- Strip the `PWL( … )` wrapper when present (`text[4:-1]`). -/
def stripWrapper (cs : List Char) : List Char :=
  if cs.take 4 = "PWL(".toList ∧ cs.getLast? = some ')' then (cs.drop 4).dropLast else cs

/-- The tail of the parse: sort the pairs by time and require at least
two points. -/
def parse_finish (ps : List (ℚ × ℚ)) : Option (List (ℚ × ℚ)) :=
  if (ps.insertionSort (fun p q : ℚ × ℚ => p.1 ≤ q.1)).length < 2 then none
  else some (ps.insertionSort (fun p q : ℚ × ℚ => p.1 ≤ q.1))

/-- The codec part of `parse_pwl_text`: everything through the sorted
`new_points`, with `none` for every early `return`. -/
def parse_core (s : List Char) : Option (List (ℚ × ℚ)) :=
  if pstrip s = [] ∨ pstrip s = needAtLeast.toList then none
  else if (splitWs (stripWrapper (pstrip s))).length < 4
      ∨ (splitWs (stripWrapper (pstrip s))).length % 2 ≠ 0 then none
  else
    match parsePairs (splitWs (stripWrapper (pstrip s))) with
    | none => none
    | some ps => parse_finish ps

/-- `parse(text) → PointList | ParseFailure` at the codec level. -/
def parse_pwl_points (text : String) : Option (List (ℚ × ℚ)) := parse_core text.toList

/-- The state update of a successful parse: replace the store and clear
the selection, then re-snap when grid snapping is enabled.  The re-snap's
unit lookups sit inside the same `try`, whose `except` swallows a
`KeyError` after the points were already replaced, hence the fallback. -/
def parse_success_state (s : PWLState) (pts : List (ℚ × ℚ)) : PWLState :=
  if s.grid_snap_enabled then
    match snap_all_points_to_grid { s with pwl_points := pts, selected_point := none } with
    | some s2 => s2
    | none => { s with pwl_points := pts, selected_point := none }
  else { s with pwl_points := pts, selected_point := none }

/-- `parse_pwl_text` as a state update. -/
def parse_pwl_text (s : PWLState) (text : String) : PWLState :=
  match parse_core text.toList with
  | none => s
  | some pts => parse_success_state s pts

/-! ## Persistence -/

/-- The JSON document of `save_file`/`load_file`, already decoded and with
`data.get` defaults applied (JSON decoding itself is outside the model). -/
structure SaveDoc where
  pwl_points : List (ℚ × ℚ)
  source_type : String
  time_unit : String
  value_unit : String
  x_range : ℚ × ℚ
  y_range : ℚ × ℚ
  grid_snap_enabled : Bool
  time_grid_size : ℚ
  value_grid_size : ℚ

/-- `load_file`: adopt every stored field verbatim (the point list is
taken as-is, with no snapping), re-validate the value unit via
`on_source_type_change`, then `update_range`. -/
def load_file (s : PWLState) (d : SaveDoc) : PWLState :=
  update_range
    (on_source_type_change { s with
      pwl_points := d.pwl_points
      source_type := d.source_type
      time_unit := d.time_unit
      value_unit := d.value_unit
      grid_snap_enabled := d.grid_snap_enabled
      time_grid_size := d.time_grid_size
      value_grid_size := d.value_grid_size })
    d.x_range.1 d.x_range.2 d.y_range.1 d.y_range.2

/-! ## Properties of `find_unique_time` -/

theorem lookup_time_pos {u : String} {ts : ℚ}
    (h : lookupU time_prefixes u = some ts) : 0 < ts := by
  simp only [time_prefixes, lookupU] at h
  split_ifs at h <;> (injection h with h2; rw [← h2]; norm_num)

theorem min_offset_pos (s : PWLState) (ts : ℚ) (hts : 0 < ts) :
    0 < min_offset s ts := by
  unfold min_offset
  split_ifs
  · exact lt_of_lt_of_le (by positivity) (le_max_left _ _)
  · positivity

theorem not_dup_iff (existing : List ℚ) (mo cur : ℚ) :
    is_duplicate existing mo cur = false ↔ ∀ t ∈ existing, mo / 2 ≤ |cur - t| := by
  unfold is_duplicate
  rw [List.any_eq_false]
  constructor
  · intro h t ht
    have h2 := h t ht
    simp only [decide_eq_true_eq] at h2
    linarith [not_lt.mp h2]
  · intro h t ht
    simp only [decide_eq_true_eq]
    exact not_lt.mpr (h t ht)

theorem fut_go_some (existing : List ℚ) (mo target : ℚ) :
    ∀ fuel attempt cur dir r,
      fut_go existing mo target attempt fuel cur dir = some r →
      is_duplicate existing mo r = false ∧ 0 ≤ r := by
  intro fuel
  induction fuel with
  | zero => intro attempt cur dir r h; simp [fut_go] at h
  | succ fuel ih =>
    intro attempt cur dir r h
    simp only [fut_go] at h
    split_ifs at h with h1 h2 h3 h4
    · obtain rfl : cur = r := by injection h
      exact h1
    · exact ih _ _ _ _ h
    · exact ih _ _ _ _ h
    · exact ih _ _ _ _ h
    · exact ih _ _ _ _ h

theorem fut_go_of_ok {existing : List ℚ} {mo target cur : ℚ} {attempt : ℕ} {dir : ℤ}
    (h1 : is_duplicate existing mo cur = false) (h2 : 0 ≤ cur)
    (fuel : ℕ) (hf : fuel ≠ 0) :
    fut_go existing mo target attempt fuel cur dir = some cur := by
  cases fuel with
  | zero => exact absurd rfl hf
  | succ f =>
    simp only [fut_go]
    rw [if_pos ⟨h1, h2⟩]

theorem existing_times_nonneg (pts : List (ℚ × ℚ)) (exclude : Option ℕ)
    (hnn : ∀ p ∈ pts, 0 ≤ p.1) : ∀ t ∈ existing_times pts exclude, 0 ≤ t := by
  intro t ht
  unfold existing_times at ht
  obtain ⟨x, hmem, rfl⟩ := List.mem_map.mp ht
  exact hnn x.2 (List.snd_mem_of_mem_enum (List.mem_filter.mp hmem).1)

theorem getElem_mem_existing (pts : List (ℚ × ℚ)) (exclude : Option ℕ) (j : ℕ)
    (hj : j < pts.length) (hne : exclude ≠ some j) :
    (pts[j]).1 ∈ existing_times pts exclude := by
  unfold existing_times
  apply List.mem_map.mpr
  refine ⟨(j, pts[j]), ?_, rfl⟩
  apply List.mem_filter.mpr
  refine ⟨List.mem_enum_iff_getElem?.mpr ?_, by simpa using hne⟩
  simp [List.getElem?_eq_getElem hj]

theorem half_le_abs {d x y : ℚ} (h : d ≤ x - y ∨ d ≤ y - x) : d ≤ |x - y| := by
  rcases h with h | h
  · exact le_trans h (le_abs_self _)
  · rw [abs_sub_comm]
    exact le_trans h (le_abs_self _)

theorem find_unique_core_spec (pts : List (ℚ × ℚ)) (mo target : ℚ) (exclude : Option ℕ)
    (hmo : 0 < mo) (hnn : ∀ p ∈ pts, 0 ≤ p.1) :
    0 ≤ find_unique_core pts mo target exclude
      ∧ ∀ t ∈ existing_times pts exclude,
        mo / 2 ≤ |find_unique_core pts mo target exclude - t| := by
  cases hgo : fut_go (existing_times pts exclude) mo target 0 100 target 1 with
  | some r =>
    have hval : find_unique_core pts mo target exclude = r := by
      unfold find_unique_core
      rw [hgo]
    obtain ⟨hdup, hr⟩ := fut_go_some _ _ _ 100 0 target 1 r hgo
    rw [hval]
    exact ⟨hr, (not_dup_iff _ _ _).mp hdup⟩
  | none =>
    cases hmax : (existing_times pts exclude).max? with
    | none =>
      have hval : find_unique_core pts mo target exclude = max 0 target := by
        unfold find_unique_core
        rw [hgo, hmax]
      have hemp : existing_times pts exclude = [] := List.max?_eq_none_iff.mp hmax
      rw [hval, hemp]
      refine ⟨le_max_left 0 target, ?_⟩
      intro t ht
      simp at ht
    | some mx =>
      have hval : find_unique_core pts mo target exclude = mx + mo := by
        unfold find_unique_core
        rw [hgo, hmax]
      have hmem : mx ∈ existing_times pts exclude :=
        List.max?_mem (fun a b => max_choice a b) hmax
      have hmx0 : 0 ≤ mx := existing_times_nonneg pts exclude hnn mx hmem
      rw [hval]
      refine ⟨by linarith, ?_⟩
      intro t ht
      have hle : t ≤ mx :=
        (List.max?_le_iff (fun a b c => max_le_iff) hmax).mp le_rfl t ht
      exact half_le_abs (Or.inl (by linarith))

/-- C2 (amended).  For every store state with nonnegative times, every
target and every (possibly absent) excluded index, `find_unique_time`
returns (given the time unit resolves in the table) a value `≥ 0` whose
distance to every stored time other than the excluded one is at least
`min_offset / 2` — the code's separation radius is `min_offset / 2`, not
`min_offset` as the specification claims.  Termination within the
bounded 100-probe loop, with fallback `max(existingTimes) + minOffset`
or `max(0, target)` for an empty list, is inherent in `find_unique_core`,
which the returned value equals by definition. -/
theorem claim_C2_find_unique_time (s : PWLState) (target : ℚ) (exclude : Option ℕ)
    (ts : ℚ) (hts : time_scale s = some ts)
    (hnn : ∀ p ∈ s.pwl_points, 0 ≤ p.1) :
    ∃ r, find_unique_time s target exclude = some r ∧ 0 ≤ r
      ∧ ∀ t ∈ existing_times s.pwl_points exclude,
        min_offset s ts / 2 ≤ |r - t| := by
  have hts0 : 0 < ts := lookup_time_pos hts
  have hmo := min_offset_pos s ts hts0
  obtain ⟨h0, hsep⟩ :=
    find_unique_core_spec s.pwl_points (min_offset s ts) target exclude hmo hnn
  refine ⟨find_unique_core s.pwl_points (min_offset s ts) target exclude, ?_, h0, hsep⟩
  unfold find_unique_time
  rw [hts]
  rfl

theorem claim_C2_witness :
    ∃ r, find_unique_time initState 3 none = some r ∧ 0 ≤ r
      ∧ ∀ t ∈ existing_times initState.pwl_points none,
        min_offset initState (1e-6) / 2 ≤ |r - t| :=
  claim_C2_find_unique_time initState 3 none (1e-6) rfl (by
    intro p hp
    rcases List.mem_cons.mp hp with rfl | hp2
    · norm_num
    rcases List.mem_cons.mp hp2 with rfl | hp3
    · norm_num
    · simp at hp3)

/-- A store on the seconds scale, used for concrete evaluations: two
points at times 0 and 1, no grid snapping. -/
def secState : PWLState :=
  { initState with time_unit := "s", pwl_points := [(0, 0), (1, 0)] }

theorem secState_existing : existing_times secState.pwl_points none = [0, 1] := rfl

theorem secState_min_offset : min_offset secState 1 = 1e-6 := by
  unfold min_offset
  rw [if_neg (by simp [secState, initState])]
  norm_num

theorem secState_dup : is_duplicate [0, 1] (1e-6) (0.75e-6) = false := by
  rw [not_dup_iff]
  intro t ht
  rcases List.mem_cons.mp ht with rfl | ht2
  · exact half_le_abs (Or.inl (by norm_num))
  rcases List.mem_cons.mp ht2 with rfl | ht3
  · exact half_le_abs (Or.inr (by norm_num))
  · simp at ht3

theorem secState_unique :
    find_unique_core secState.pwl_points (min_offset secState 1) (0.75e-6) none
      = 0.75e-6 := by
  have hgo : fut_go [0, 1] (1e-6) (0.75e-6) 0 100 (0.75e-6) 1 = some (0.75e-6) :=
    fut_go_of_ok secState_dup (by norm_num) 100 (by norm_num)
  unfold find_unique_core
  rw [secState_existing, secState_min_offset, hgo]

/-- C2 counterexample: on the seconds scale (`min_offset = 1e-6`), asking
for time `0.75e-6` next to the stored time 0 returns it unchanged —
`0.75e-6` is within `min_offset` of the stored time 0, so the claimed
`min_offset` exclusion radius is false (only `min_offset / 2` holds). -/
theorem claim_C2_counterexample :
    find_unique_time secState (0.75e-6) none = some (0.75e-6)
      ∧ (0:ℚ) ∈ existing_times secState.pwl_points none
      ∧ |(0.75e-6 : ℚ) - 0| < min_offset secState 1 := by
  refine ⟨?_, ?_, ?_⟩
  · have hts : time_scale secState = some 1 := rfl
    unfold find_unique_time
    rw [hts]
    simp only [Option.map_some']
    rw [secState_unique]
  · rw [secState_existing]
    exact List.mem_cons_self _ _
  · rw [secState_min_offset, sub_zero, abs_of_nonneg (by norm_num)]
    norm_num

/-! ## Claim C3: sorted and separated after insert and update -/

instance : IsTotal (ℚ × ℚ) (fun p q : ℚ × ℚ => p.1 ≤ q.1) :=
  ⟨fun a b => le_total a.1 b.1⟩

instance : IsTrans (ℚ × ℚ) (fun p q : ℚ × ℚ => p.1 ≤ q.1) :=
  ⟨fun _ _ _ h1 h2 => le_trans h1 h2⟩

theorem insert_scan_le_length (ut : ℚ) (pts : List (ℚ × ℚ)) :
    insert_scan ut pts ≤ pts.length := by
  induction pts with
  | nil => simp [insert_scan]
  | cons p rest ih =>
    simp only [insert_scan, List.length_cons]
    split_ifs
    · exact Nat.succ_le_succ ih
    · exact Nat.zero_le _

theorem insert_sorted_sep (d : ℚ) (pt : ℚ × ℚ) :
    ∀ pts : List (ℚ × ℚ),
      List.Pairwise (fun p q : ℚ × ℚ => p.1 ≤ q.1) pts →
      List.Pairwise (fun p q : ℚ × ℚ => d ≤ |p.1 - q.1|) pts →
      (∀ q ∈ pts, d ≤ |pt.1 - q.1|) →
      List.Pairwise (fun p q : ℚ × ℚ => p.1 ≤ q.1)
          (List.insertIdx (insert_scan pt.1 pts) pt pts)
        ∧ List.Pairwise (fun p q : ℚ × ℚ => d ≤ |p.1 - q.1|)
          (List.insertIdx (insert_scan pt.1 pts) pt pts) := by
  intro pts
  induction pts with
  | nil =>
    intro _ _ _
    refine ⟨?_, ?_⟩ <;> simp [insert_scan]
  | cons p rest ih =>
    intro hs hsep hnew
    simp only [insert_scan]
    split_ifs with hgt
    · rw [List.insertIdx_succ_cons]
      obtain ⟨ih1, ih2⟩ := ih hs.of_cons hsep.of_cons
        (fun q hq => hnew q (List.mem_cons_of_mem p hq))
      have hmem : ∀ q ∈ List.insertIdx (insert_scan pt.1 rest) pt rest,
          q = pt ∨ q ∈ rest := by
        intro q hq
        exact (List.mem_insertIdx (insert_scan_le_length pt.1 rest)).mp hq
      constructor
      · rw [List.pairwise_cons]
        refine ⟨?_, ih1⟩
        intro q hq
        rcases hmem q hq with rfl | hq2
        · exact le_of_lt hgt
        · exact (List.pairwise_cons.mp hs).1 q hq2
      · rw [List.pairwise_cons]
        refine ⟨?_, ih2⟩
        intro q hq
        rcases hmem q hq with rfl | hq2
        · rw [abs_sub_comm]
          exact hnew p (List.mem_cons_self p rest)
        · exact (List.pairwise_cons.mp hsep).1 q hq2
    · rw [List.insertIdx_zero]
      constructor
      · rw [List.pairwise_cons]
        refine ⟨?_, hs⟩
        intro q hq
        rcases List.mem_cons.mp hq with rfl | hq2
        · exact not_lt.mp hgt
        · exact le_trans (not_lt.mp hgt) ((List.pairwise_cons.mp hs).1 q hq2)
      · rw [List.pairwise_cons]
        exact ⟨hnew, hsep⟩

theorem set_sort_sorted_sep (pts : List (ℚ × ℚ)) (idx : ℕ) (pt : ℚ × ℚ) (d : ℚ)
    (hsep : List.Pairwise (fun p q : ℚ × ℚ => d ≤ |p.1 - q.1|) pts)
    (hnew : ∀ j, (hj : j < pts.length) → j ≠ idx → d ≤ |pt.1 - (pts[j]).1|) :
    List.Pairwise (fun p q : ℚ × ℚ => p.1 ≤ q.1)
        ((pts.set idx pt).insertionSort (fun p q : ℚ × ℚ => p.1 ≤ q.1))
      ∧ List.Pairwise (fun p q : ℚ × ℚ => d ≤ |p.1 - q.1|)
        ((pts.set idx pt).insertionSort (fun p q : ℚ × ℚ => p.1 ≤ q.1)) := by
  have hsym : ∀ {a b : ℚ × ℚ}, d ≤ |a.1 - b.1| → d ≤ |b.1 - a.1| := by
    intro a b h
    rwa [abs_sub_comm]
  refine ⟨List.sorted_insertionSort _ _, ?_⟩
  rw [List.Perm.pairwise_iff hsym (List.perm_insertionSort _ _)]
  rw [List.pairwise_iff_getElem] at hsep ⊢
  intro i j hi hj hij
  have hi2 : i < pts.length := by simpa using hi
  have hj2 : j < pts.length := by simpa using hj
  rw [List.getElem_set, List.getElem_set]
  by_cases hii : idx = i
  · subst hii
    rw [if_pos rfl, if_neg (by omega)]
    exact hnew j hj2 (by omega)
  · rw [if_neg hii]
    by_cases hjj : idx = j
    · subst hjj
      rw [if_pos rfl]
      exact hsym (hnew i hi2 (fun hc => hii hc.symm))
    · rw [if_neg hjj]
      exact hsep i j hi2 hj2 hij

theorem add_point_at_eq (s : PWLState) (x y : Option ℚ) (ts vs : ℚ)
    (hts : time_scale s = some ts) (hvs : value_scale s = some vs) :
    add_point_at s x y = some { s with pwl_points := added_pts s ts vs x y } := by
  unfold add_point_at
  rw [hts, hvs]

theorem move_point_eq (s : PWLState) (x y : Option ℚ) (idx : ℕ) (ts vs : ℚ)
    (hsel : s.selected_point = some idx) (hts : time_scale s = some ts)
    (hvs : value_scale s = some vs) :
    move_point s x y = (if idx < s.pwl_points.length then
      some { s with
        pwl_points := (moved_pts s idx ts vs x y)
        selected_point := (moved_sel s idx ts vs x y) }
    else none) := by
  unfold move_point
  rw [hsel, hts, hvs]

theorem move_point_eq_none (s : PWLState) (x y : Option ℚ)
    (hsel : s.selected_point = none) : move_point s x y = some s := by
  unfold move_point
  rw [hsel]

/-- C3 (amended).  Starting from a store that is sorted ascending and
whose times are pairwise at least `min_offset / 2` apart and nonnegative,
any successful insert (`add_point_at`) or update (`move_point`) yields a
store that is again sorted ascending with times pairwise at least
`min_offset / 2` apart — `min_offset / 2`, not `min_offset` as the
specification claims, because the uniqueness search only enforces the
half-radius. -/
theorem claim_C3_insert_update_invariant (s : PWLState) (x y : Option ℚ) (ts vs : ℚ)
    (hts : time_scale s = some ts) (hvs : value_scale s = some vs)
    (hsort : List.Pairwise (fun p q : ℚ × ℚ => p.1 ≤ q.1) s.pwl_points)
    (hsep : List.Pairwise (fun p q : ℚ × ℚ => min_offset s ts / 2 ≤ |p.1 - q.1|)
      s.pwl_points)
    (hnn : ∀ p ∈ s.pwl_points, 0 ≤ p.1) :
    (∀ s1, add_point_at s x y = some s1 →
      List.Pairwise (fun p q : ℚ × ℚ => p.1 ≤ q.1) s1.pwl_points
        ∧ List.Pairwise (fun p q : ℚ × ℚ => min_offset s ts / 2 ≤ |p.1 - q.1|)
          s1.pwl_points)
      ∧ (∀ s1, move_point s x y = some s1 →
        List.Pairwise (fun p q : ℚ × ℚ => p.1 ≤ q.1) s1.pwl_points
          ∧ List.Pairwise (fun p q : ℚ × ℚ => min_offset s ts / 2 ≤ |p.1 - q.1|)
            s1.pwl_points) := by
  have hts0 : 0 < ts := lookup_time_pos hts
  have hmo : 0 < min_offset s ts := min_offset_pos s ts hts0
  constructor
  · intro s1 h
    rw [add_point_at_eq s x y ts vs hts hvs] at h
    obtain rfl : { s with pwl_points := added_pts s ts vs x y } = s1 :=
      Option.some.inj h
    have hnew : ∀ q ∈ s.pwl_points,
        min_offset s ts / 2 ≤ |(added_point s ts vs x y).1 - q.1| := by
      intro q hq
      obtain ⟨n, hn, rfl⟩ := List.mem_iff_getElem.mp hq
      exact (find_unique_core_spec s.pwl_points (min_offset s ts)
        (max 0 ((snap_to_grid s (x.getD 0) (y.getD 0)).1 * ts)) none hmo hnn).2
        _ (getElem_mem_existing s.pwl_points none n hn (by simp))
    exact insert_sorted_sep (min_offset s ts / 2) (added_point s ts vs x y)
      s.pwl_points hsort hsep hnew
  · intro s1 h
    cases hsel : s.selected_point with
    | none =>
      rw [move_point_eq_none s x y hsel] at h
      obtain rfl : s = s1 := Option.some.inj h
      exact ⟨hsort, hsep⟩
    | some idx =>
      rw [move_point_eq s x y idx ts vs hsel hts hvs] at h
      by_cases hidx : idx < s.pwl_points.length
      · rw [if_pos hidx] at h
        obtain rfl := Option.some.inj h
        have hnew : ∀ j, (hj : j < s.pwl_points.length) → j ≠ idx →
            min_offset s ts / 2
              ≤ |(moved_point s idx ts vs x y).1 - (s.pwl_points[j]).1| := by
          intro j hj hne
          exact (find_unique_core_spec s.pwl_points (min_offset s ts)
            (max 0 ((snap_to_grid s (x.getD 0) (y.getD 0)).1 * ts)) (some idx) hmo hnn).2
            _ (getElem_mem_existing s.pwl_points (some idx) j hj
              (fun hc => (Ne.symm hne) (Option.some.inj hc)))
        exact set_sort_sorted_sep s.pwl_points idx (moved_point s idx ts vs x y)
          (min_offset s ts / 2) hsep hnew
      · rw [if_neg hidx] at h
        simp at h

theorem claim_C3_witness :
    (∀ s1, add_point_at initState (some 3) (some 0) = some s1 →
      List.Pairwise (fun p q : ℚ × ℚ => p.1 ≤ q.1) s1.pwl_points
        ∧ List.Pairwise
          (fun p q : ℚ × ℚ => min_offset initState (1e-6) / 2 ≤ |p.1 - q.1|)
          s1.pwl_points)
      ∧ (∀ s1, move_point initState (some 3) (some 0) = some s1 →
        List.Pairwise (fun p q : ℚ × ℚ => p.1 ≤ q.1) s1.pwl_points
          ∧ List.Pairwise
            (fun p q : ℚ × ℚ => min_offset initState (1e-6) / 2 ≤ |p.1 - q.1|)
            s1.pwl_points) :=
  claim_C3_insert_update_invariant initState (some 3) (some 0) (1e-6) (1e-3) rfl rfl
    (by
      refine List.Pairwise.cons ?_ (List.pairwise_singleton _ _)
      intro q hq
      rw [List.mem_singleton.mp hq]
      show (0:ℚ) ≤ 1e-6
      norm_num)
    (by
      refine List.Pairwise.cons ?_ (List.pairwise_singleton _ _)
      intro q hq
      rw [List.mem_singleton.mp hq]
      show min_offset initState (1e-6) / 2 ≤ |(0:ℚ) - 1e-6|
      rw [show min_offset initState (1e-6) = 1e-6 * 1e-6 from
        by unfold min_offset; rw [if_neg (by simp [initState])]]
      rw [abs_sub_comm, sub_zero, abs_of_nonneg (by norm_num)]
      norm_num)
    (by
      intro p hp
      rcases List.mem_cons.mp hp with rfl | hp2
      · norm_num
      rcases List.mem_cons.mp hp2 with rfl | hp3
      · norm_num
      · simp at hp3)

/-- C3 counterexample: on the seconds scale, inserting at display time
`0.75e-6` next to the stored time 0 succeeds and the resulting store
holds the two times 0 and `0.75e-6`, which are within `min_offset` of
each other — the claimed `min_offset` pairwise separation is false (only
`min_offset / 2` is enforced). -/
theorem claim_C3_counterexample :
    (∃ s1, add_point_at secState (some (0.75e-6)) (some 0) = some s1
      ∧ s1.pwl_points = [(0, 0), (0.75e-6, 0), (1, 0)])
      ∧ |(0.75e-6 : ℚ) - 0| < min_offset secState 1 := by
  constructor
  · refine ⟨{ secState with pwl_points := [(0, 0), (0.75e-6, 0), (1, 0)] }, ?_, rfl⟩
    rw [add_point_at_eq secState (some (0.75e-6)) (some 0) 1 (1e-3) rfl rfl]
    refine congrArg some (congrArg (fun L => { secState with pwl_points := L }) ?_)
    unfold added_pts added_point
    rw [show snap_to_grid secState (((some (0.75e-6 : ℚ))).getD 0)
        ((some (0 : ℚ)).getD 0) = (0.75e-6, 0) from rfl]
    show List.insertIdx
        (insert_scan
          (find_unique_core secState.pwl_points (min_offset secState 1)
            (max 0 ((0.75e-6 : ℚ) * 1)) none)
          secState.pwl_points)
        (find_unique_core secState.pwl_points (min_offset secState 1)
          (max 0 ((0.75e-6 : ℚ) * 1)) none, (0 : ℚ) * (1e-3 : ℚ))
        secState.pwl_points = [(0, 0), (0.75e-6, 0), (1, 0)]
    rw [show max (0:ℚ) ((0.75e-6 : ℚ) * 1) = 0.75e-6 from by norm_num]
    rw [secState_unique]
    rw [show ((0 : ℚ) * (1e-3 : ℚ)) = 0 from by norm_num]
    rw [show insert_scan (0.75e-6 : ℚ) secState.pwl_points = 1 from by
      show insert_scan (0.75e-6 : ℚ) [((0:ℚ), (0:ℚ)), (1, 0)] = 1
      simp only [insert_scan]
      norm_num]
    rfl
  · rw [secState_min_offset, sub_zero, abs_of_nonneg (by norm_num)]
    norm_num

/-! ## Claim C4: delete at the two-point floor -/

/-- C4 (amended).  At the two-point floor, `delete_point` never mutates
the store; with a selected point it fails with the minimum-points warning,
but with no selection the branch order gives the no-selection warning
instead (the specification claims `MinimumPointsViolation` for every
selection state). -/
theorem claim_C4_delete_at_floor (s : PWLState) (h2 : s.pwl_points.length = 2) :
    (s.selected_point ≠ none → (delete_point s).2 = DeleteOutcome.minimumPoints)
      ∧ (s.selected_point = none → (delete_point s).2 = DeleteOutcome.noSelection)
      ∧ (delete_point s).1 = s ∧ (delete_point s).1.pwl_points.length = 2 := by
  cases hsel : s.selected_point with
  | none => simp [delete_point, hsel, h2]
  | some idx =>
    have hlen : ¬ (2 < s.pwl_points.length) := by omega
    simp [delete_point, hsel, hlen, h2]

theorem claim_C4_witness :
    (delete_point initState).1 = initState
      ∧ (delete_point initState).2 = DeleteOutcome.noSelection :=
  ⟨(claim_C4_delete_at_floor initState rfl).2.2.1,
    (claim_C4_delete_at_floor initState rfl).2.1 rfl⟩

/-- C4 counterexample: with two points and no selection, `delete_point`
reports `noSelection`, not the claimed `MinimumPointsViolation`. -/
theorem claim_C4_counterexample :
    initState.pwl_points.length = 2
      ∧ (delete_point initState).2 = DeleteOutcome.noSelection
      ∧ (delete_point initState).2 ≠ DeleteOutcome.minimumPoints := by
  refine ⟨rfl, rfl, ?_⟩
  intro h
  exact absurd h (by decide)

/-! ## Claim C5: clamping behavior of the view-state operations -/

/-- C5 (amended).  `pan_left` and the wheel zoom do enforce `timeMin ≥ 0`
by shifting the whole window right, preserving the (new) time span; but
the direct range edit `update_range` merely clamps `x_min` to
`max 0 xm` without touching `x_max`, so it (and `zoom_out`, which goes
through it) silently shrinks the visible time span when clamping — the
specification's "every view-state operation … increasing timeMax by the
clamp amount" is false for the direct range edit and for zoom. -/
theorem clampIf_x_min_nonneg (s : PWLState) (a b ym yM : ℚ) :
    0 ≤ (if a < 0 then update_range s 0 (b - a) ym yM
      else update_range s a b ym yM).x_min := by
  split_ifs with h
  · exact le_max_left 0 _
  · exact le_max_left 0 _

theorem clampIf_x_span (s : PWLState) (a b ym yM : ℚ) :
    (if a < 0 then update_range s 0 (b - a) ym yM
        else update_range s a b ym yM).x_max
      - (if a < 0 then update_range s 0 (b - a) ym yM
        else update_range s a b ym yM).x_min = b - a := by
  split_ifs with h
  · simp only [update_range, max_self]
    ring
  · simp only [update_range]
    rw [max_eq_right (not_lt.mp h)]

theorem claim_C5_clamp_behavior (s : PWLState) (xm xM ym yM xc yc : ℚ) (up : Bool) :
    (0 ≤ (pan_left s).x_min
        ∧ (pan_left s).x_max - (pan_left s).x_min = s.x_max - s.x_min)
      ∧ (0 ≤ (on_scroll s xc yc up (some ScrollKey.shift)).x_min
        ∧ (on_scroll s xc yc up (some ScrollKey.shift)).x_max
            - (on_scroll s xc yc up (some ScrollKey.shift)).x_min
          = (s.x_max - s.x_min) * (if up then (0.9:ℚ) else 1.1))
      ∧ (0 ≤ (on_scroll s xc yc up none).x_min
        ∧ (on_scroll s xc yc up none).x_max - (on_scroll s xc yc up none).x_min
          = (s.x_max - s.x_min) * (if up then (0.9:ℚ) else 1.1))
      ∧ (update_range s xm xM ym yM).x_min = max 0 xm
      ∧ (update_range s xm xM ym yM).x_max = xM := by
  refine ⟨⟨?_, ?_⟩, ⟨?_, ?_⟩, ⟨?_, ?_⟩, rfl, rfl⟩
  · unfold pan_left update_range
    split_ifs <;> exact le_max_left 0 _
  · unfold pan_left update_range
    split_ifs with h
    · simp only [max_self]
      ring
    · rw [max_eq_right (not_lt.mp h)]
      ring
  · simp only [on_scroll]
    exact clampIf_x_min_nonneg s _ _ s.y_min s.y_max
  · simp only [on_scroll]
    rw [clampIf_x_span s (xc - (s.x_max - s.x_min) * (if up then (0.9:ℚ) else 1.1) / 2)
      (xc + (s.x_max - s.x_min) * (if up then (0.9:ℚ) else 1.1) / 2) s.y_min s.y_max]
    ring
  · simp only [on_scroll]
    exact clampIf_x_min_nonneg s _ _ _ _
  · simp only [on_scroll]
    rw [clampIf_x_span s (xc - (s.x_max - s.x_min) * (if up then (0.9:ℚ) else 1.1) / 2)
      (xc + (s.x_max - s.x_min) * (if up then (0.9:ℚ) else 1.1) / 2) _ _]
    ring

/-- C5 counterexample: the direct range edit with requested window
`[-5, 5]` (span 10) yields `[0, 5]` (span 5), and `zoom_out` from the
initial window `[0, 10]` yields `[0, 15]` (span 15) instead of the
doubled span 20 — both shrink the span when clamping instead of
shifting `timeMax` up by the clamp amount. -/
theorem claim_C5_counterexample :
    (update_range initState (-5) 5 0 1).x_min = 0
      ∧ (update_range initState (-5) 5 0 1).x_max
          - (update_range initState (-5) 5 0 1).x_min = 5
      ∧ ((5 : ℚ) - (-5)) = 10
      ∧ (zoom_out initState).x_min = 0
      ∧ (zoom_out initState).x_max - (zoom_out initState).x_min = 15
      ∧ (initState.x_max - initState.x_min) * 2 = 20 := by
  refine ⟨?_, ?_, by norm_num, ?_, ?_, ?_⟩
  · show max 0 (-5) = 0
    rw [max_eq_left (by norm_num)]
  · show (5:ℚ) - max 0 (-5) = 5
    rw [max_eq_left (by norm_num)]
    norm_num
  · show max 0 ((initState.x_min + initState.x_max) / 2
        - (initState.x_max - initState.x_min) * 1) = 0
    rw [show ((initState.x_min + initState.x_max) / 2
        - (initState.x_max - initState.x_min) * 1) = -5 by
      show ((0:ℚ) + 10) / 2 - (10 - 0) * 1 = -5
      norm_num]
    rw [max_eq_left (by norm_num)]
  · show ((initState.x_min + initState.x_max) / 2
          + (initState.x_max - initState.x_min) * 1)
        - max 0 ((initState.x_min + initState.x_max) / 2
          - (initState.x_max - initState.x_min) * 1) = 15
    rw [show ((initState.x_min + initState.x_max) / 2
        - (initState.x_max - initState.x_min) * 1) = -5 by
      show ((0:ℚ) + 10) / 2 - (10 - 0) * 1 = -5
      norm_num]
    rw [max_eq_left (by norm_num)]
    show ((0:ℚ) + 10) / 2 + (10 - 0) * 1 - 0 = 15
    norm_num
  · show ((10:ℚ) - 0) * 2 = 20
    norm_num

/-! ## Claim C8: wheel zoom recenters on the cursor -/

/-- The relative position of `x` inside the window `[lo, hi]`. -/
def relPos (x lo hi : ℚ) : ℚ := (x - lo) / (hi - lo)

/-- C8 (amended).  The wheel zoom recomputes the half-span with factor
`0.9` (up) / `1.1` (down), restricted to the selected axis — but it
places the cursor at the *center* of the new window (`new_min =
cursor - halfSpan`, `new_max = cursor + halfSpan`), so the point under
the cursor does not stay fixed at its previous relative position; the
specification's "the point under the cursor stays fixed" is false. -/
theorem claim_C8_scroll_recenter (s : PWLState) (xc yc : ℚ) (up : Bool) :
    ((on_scroll s xc yc up (some ScrollKey.control)).y_min
        = yc - (s.y_max - s.y_min) * (if up then (0.9:ℚ) else 1.1) / 2
      ∧ (on_scroll s xc yc up (some ScrollKey.control)).y_max
        = yc + (s.y_max - s.y_min) * (if up then (0.9:ℚ) else 1.1) / 2
      ∧ (on_scroll s xc yc up (some ScrollKey.control)).x_min = max 0 s.x_min
      ∧ (on_scroll s xc yc up (some ScrollKey.control)).x_max = s.x_max)
      ∧ ((on_scroll s xc yc up (some ScrollKey.control)).y_min
          + (on_scroll s xc yc up (some ScrollKey.control)).y_max) / 2 = yc
      ∧ (¬ xc - (s.x_max - s.x_min) * (if up then (0.9:ℚ) else 1.1) / 2 < 0 →
        ((on_scroll s xc yc up (some ScrollKey.shift)).x_min
            + (on_scroll s xc yc up (some ScrollKey.shift)).x_max) / 2 = xc
          ∧ (on_scroll s xc yc up (some ScrollKey.shift)).y_min = s.y_min
          ∧ (on_scroll s xc yc up (some ScrollKey.shift)).y_max = s.y_max)
      ∧ (¬ xc - (s.x_max - s.x_min) * (if up then (0.9:ℚ) else 1.1) / 2 < 0 →
        ((on_scroll s xc yc up none).x_min + (on_scroll s xc yc up none).x_max) / 2 = xc
          ∧ ((on_scroll s xc yc up none).y_min + (on_scroll s xc yc up none).y_max) / 2
            = yc) := by
  have hctrl_ymin : (on_scroll s xc yc up (some ScrollKey.control)).y_min
      = yc - (s.y_max - s.y_min) * (if up then (0.9:ℚ) else 1.1) / 2 := rfl
  have hctrl_ymax : (on_scroll s xc yc up (some ScrollKey.control)).y_max
      = yc + (s.y_max - s.y_min) * (if up then (0.9:ℚ) else 1.1) / 2 := rfl
  refine ⟨⟨hctrl_ymin, hctrl_ymax, rfl, rfl⟩, ?_, ?_, ?_⟩
  · rw [hctrl_ymin, hctrl_ymax]
    ring
  · intro h
    refine ⟨?_, ?_, ?_⟩
    · simp only [on_scroll]
      rw [if_neg h]
      simp only [update_range]
      rw [max_eq_right (not_lt.mp h)]
      ring
    · simp only [on_scroll]
      rw [if_neg h]
      rfl
    · simp only [on_scroll]
      rw [if_neg h]
      rfl
  · intro h
    constructor
    · simp only [on_scroll]
      rw [if_neg h]
      simp only [update_range]
      rw [max_eq_right (not_lt.mp h)]
      ring
    · simp only [on_scroll]
      rw [if_neg h]
      simp only [update_range]
      ring

theorem claim_C8_witness :
    ((on_scroll initState 5 0 true (some ScrollKey.control)).y_min
        = 0 - (initState.y_max - initState.y_min) * (if true then (0.9:ℚ) else 1.1) / 2
      ∧ (on_scroll initState 5 0 true (some ScrollKey.control)).y_max
        = 0 + (initState.y_max - initState.y_min) * (if true then (0.9:ℚ) else 1.1) / 2
      ∧ (on_scroll initState 5 0 true (some ScrollKey.control)).x_min = max 0 initState.x_min
      ∧ (on_scroll initState 5 0 true (some ScrollKey.control)).x_max = initState.x_max)
      ∧ ((on_scroll initState 5 0 true (some ScrollKey.control)).y_min
          + (on_scroll initState 5 0 true (some ScrollKey.control)).y_max) / 2 = 0
      ∧ (¬ (5:ℚ) - (initState.x_max - initState.x_min) * (if true then (0.9:ℚ) else 1.1) / 2 < 0 →
        ((on_scroll initState 5 0 true (some ScrollKey.shift)).x_min
            + (on_scroll initState 5 0 true (some ScrollKey.shift)).x_max) / 2 = 5
          ∧ (on_scroll initState 5 0 true (some ScrollKey.shift)).y_min = initState.y_min
          ∧ (on_scroll initState 5 0 true (some ScrollKey.shift)).y_max = initState.y_max)
      ∧ (¬ (5:ℚ) - (initState.x_max - initState.x_min) * (if true then (0.9:ℚ) else 1.1) / 2 < 0 →
        ((on_scroll initState 5 0 true none).x_min
            + (on_scroll initState 5 0 true none).x_max) / 2 = 5
          ∧ ((on_scroll initState 5 0 true none).y_min
              + (on_scroll initState 5 0 true none).y_max) / 2 = 0) :=
  claim_C8_scroll_recenter initState 5 0 true

/-- C8 counterexample: Ctrl-wheel zoom-in at cursor value 2 on the
initial value window `[-5, 5]` yields `[-2.5, 6.5]`: the cursor moves
from relative position `7/10` of the window to `1/2` — it does not stay
fixed. -/
theorem claim_C8_counterexample :
    (on_scroll initState 0 2 true (some ScrollKey.control)).y_min = -2.5
      ∧ (on_scroll initState 0 2 true (some ScrollKey.control)).y_max = 6.5
      ∧ relPos 2 initState.y_min initState.y_max = 7/10
      ∧ relPos 2 (-2.5) 6.5 = 1/2
      ∧ (7/10 : ℚ) ≠ 1/2 := by
  refine ⟨?_, ?_, ?_, ?_, by norm_num⟩
  · show (2:ℚ) - (initState.y_max - initState.y_min) * (if true then (0.9:ℚ) else 1.1) / 2
      = -2.5
    show (2:ℚ) - ((5:ℚ) - (-5)) * 0.9 / 2 = -2.5
    norm_num
  · show (2:ℚ) + (initState.y_max - initState.y_min) * (if true then (0.9:ℚ) else 1.1) / 2
      = 6.5
    show (2:ℚ) + ((5:ℚ) - (-5)) * 0.9 / 2 = 6.5
    norm_num
  · show ((2:ℚ) - (-5)) / ((5:ℚ) - (-5)) = 7/10
    norm_num
  · unfold relPos
    norm_num

/-! ## Claim C9: unit changes do not rescale points or view bounds -/

/-- C9.  `on_unit_change` adopts the new unit symbols and redraws; the
stored SI point values and the four view bounds are numerically unchanged
(no rescaling into the new unit), so only their interpretation changes. -/
theorem claim_C9_unit_change_no_rescale (s : PWLState) (tu vu : String) :
    (on_unit_change s tu vu).pwl_points = s.pwl_points
      ∧ (on_unit_change s tu vu).x_min = s.x_min
      ∧ (on_unit_change s tu vu).x_max = s.x_max
      ∧ (on_unit_change s tu vu).y_min = s.y_min
      ∧ (on_unit_change s tu vu).y_max = s.y_max
      ∧ (on_unit_change s tu vu).time_unit = tu
      ∧ (on_unit_change s tu vu).value_unit = vu :=
  ⟨rfl, rfl, rfl, rfl, rfl, rfl, rfl⟩

/-! ## Claim C6: parse failure modes and the success update -/

theorem stripWrapper_wrapped (cs : List Char) :
    stripWrapper ("PWL(".toList ++ cs ++ [')']) = cs := by
  have hassoc : "PWL(".toList ++ cs ++ [')'] = "PWL(".toList ++ (cs ++ [')']) := by
    simp
  unfold stripWrapper
  rw [hassoc]
  rw [if_pos ⟨by
      rw [show (4:ℕ) = ("PWL(".toList).length from rfl]
      exact List.take_left _ _,
    by
      rw [show "PWL(".toList ++ (cs ++ [')']) = ("PWL(".toList ++ cs) ++ [')'] from by
        simp]
      exact List.getLast?_concat _⟩]
  rw [show (4:ℕ) = ("PWL(".toList).length from rfl, List.drop_left,
    List.dropLast_concat]

theorem parse_pwl_text_none {s : PWLState} {text : String}
    (h : parse_core text.toList = none) : parse_pwl_text s text = s := by
  unfold parse_pwl_text
  rw [h]

theorem parse_pwl_text_some {s : PWLState} {text : String} {pts : List (ℚ × ℚ)}
    (h : parse_core text.toList = some pts) :
    parse_pwl_text s text = parse_success_state s pts := by
  unfold parse_pwl_text
  rw [h]

theorem snap_all_sel {s0 s2 : PWLState} (h : snap_all_points_to_grid s0 = some s2) :
    s2.selected_point = s0.selected_point := by
  unfold snap_all_points_to_grid at h
  split_ifs at h with h1
  case neg =>
    obtain rfl := Option.some.inj h
    rfl
  case pos =>
    cases hts : time_scale s0 with
    | none =>
      rw [hts] at h
      cases hvs : value_scale s0 <;> rw [hvs] at h <;> exact Option.noConfusion h
    | some ts =>
      rw [hts] at h
      cases hvs : value_scale s0 with
      | none =>
        rw [hvs] at h
        exact Option.noConfusion h
      | some vs =>
        rw [hvs] at h
        obtain rfl := Option.some.inj h
        rfl

theorem parsePairs_nonneg :
    ∀ (n : ℕ) (toks : List (List Char)), toks.length ≤ n →
      ∀ ps, parsePairs toks = some ps → ∀ p ∈ ps, 0 ≤ p.1 := by
  intro n
  induction n with
  | zero =>
    intro toks hlen ps h p hp
    obtain rfl : toks = [] := List.length_eq_zero.mp (Nat.le_zero.mp hlen)
    obtain rfl : ([] : List (ℚ × ℚ)) = ps := Option.some.inj h
    simp at hp
  | succ n ih =>
    intro toks hlen ps h p hp
    match toks with
    | [] =>
      obtain rfl : ([] : List (ℚ × ℚ)) = ps := Option.some.inj h
      simp at hp
    | [t] => exact Option.noConfusion h
    | t :: v :: rest =>
      simp only [parsePairs] at h
      cases hpt : parseFloat t <;> rw [hpt] at h
      · exact Option.noConfusion h
      cases hpv : parseFloat v <;> rw [hpv] at h
      · exact Option.noConfusion h
      cases hpr : parsePairs rest <;> rw [hpr] at h
      · exact Option.noConfusion h
      case some.some.some tv vv ps0 =>
        obtain rfl := Option.some.inj h
        rcases List.mem_cons.mp hp with rfl | hp2
        · show 0 ≤ (if tv < 0 then 0 else tv)
          split_ifs with hneg
          · exact le_refl 0
          · exact not_lt.mp hneg
        · exact ih rest (by simp at hlen; omega) ps0 hpr p hp2

/-- C6.  The parse strips an optional `PWL( … )` wrapper, requires an
even whitespace-token count `≥ 4`, parses the tokens pairwise clamping
negative times to 0, and fails — leaving the prior store untouched — on
an empty/sentinel text, a bad token count, a non-numeric token, or fewer
than 2 resulting points; a successful parse yields at least 2 pairs
sorted by time, replaces the store (verbatim when snapping is off) and
clears the selection. -/
theorem claim_C6_parse_errors (s : PWLState) (text : String) (cs : List Char)
    (toks : List (List Char)) (ps pts : List (ℚ × ℚ)) :
    (parse_core text.toList = none → parse_pwl_text s text = s)
      ∧ (stripWrapper ("PWL(".toList ++ cs ++ [')']) = cs)
      ∧ (¬ (cs.take 4 = "PWL(".toList ∧ cs.getLast? = some ')') → stripWrapper cs = cs)
      ∧ (pstrip cs = [] → parse_core cs = none)
      ∧ (pstrip cs = needAtLeast.toList → parse_core cs = none)
      ∧ ((splitWs (stripWrapper (pstrip cs))).length < 4 → parse_core cs = none)
      ∧ ((splitWs (stripWrapper (pstrip cs))).length % 2 ≠ 0 → parse_core cs = none)
      ∧ (parsePairs (splitWs (stripWrapper (pstrip cs))) = none → parse_core cs = none)
      ∧ (parsePairs toks = some ps → ∀ p ∈ ps, 0 ≤ p.1)
      ∧ (parse_core cs = some pts →
        2 ≤ pts.length ∧ List.Pairwise (fun p q : ℚ × ℚ => p.1 ≤ q.1) pts)
      ∧ (parse_core text.toList = some pts → s.grid_snap_enabled = false →
        parse_pwl_text s text = { s with pwl_points := pts, selected_point := none })
      ∧ (parse_core text.toList = some pts →
        (parse_pwl_text s text).selected_point = none) := by
  refine ⟨parse_pwl_text_none, stripWrapper_wrapped cs, ?_, ?_, ?_, ?_, ?_, ?_, ?_, ?_, ?_, ?_⟩
  · intro h
    unfold stripWrapper
    rw [if_neg h]
  · intro h
    unfold parse_core
    rw [if_pos (Or.inl h)]
  · intro h
    unfold parse_core
    rw [if_pos (Or.inr h)]
  · intro h
    unfold parse_core
    split_ifs with h1 h2
    · rfl
    · rfl
    · exact absurd (Or.inl h) h2
  · intro h
    unfold parse_core
    split_ifs with h1 h2
    · rfl
    · rfl
    · exact absurd (Or.inr h) h2
  · intro h
    unfold parse_core
    split_ifs with h1 h2
    · rfl
    · rfl
    · rw [h]
  · intro h
    exact parsePairs_nonneg toks.length toks le_rfl ps h
  · intro h
    unfold parse_core at h
    split_ifs at h
    cases hpp : parsePairs (splitWs (stripWrapper (pstrip cs))) <;> rw [hpp] at h
    · exact Option.noConfusion h
    case neg.some ps0 =>
      have h3 : parse_finish ps0 = some pts := h
      unfold parse_finish at h3
      split_ifs at h3 with hlen
      obtain rfl := Option.some.inj h3
      push_neg at hlen
      exact ⟨hlen, List.sorted_insertionSort _ _⟩
  · intro h hsnap
    rw [parse_pwl_text_some h]
    unfold parse_success_state
    rw [if_neg (by rw [hsnap]; exact Bool.false_ne_true)]
  · intro h
    rw [parse_pwl_text_some h]
    unfold parse_success_state
    split_ifs with hsnap
    · cases hsn : snap_all_points_to_grid
          { s with pwl_points := pts, selected_point := none } with
      | none => rfl
      | some s2 =>
        rw [snap_all_sel hsn]
    · rfl

/-! ## Claim C7: the rendered text -/

theorem fmtG6_zero : fmtG6 (0 : ℚ) = ['0'] := by
  unfold fmtG6
  rw [if_pos rfl]

theorem intLog10_micro : intLog10 (1e-6 : ℚ) = -6 := by
  apply intLog10_eq_of
  · norm_num
  · norm_num

theorem mantissaExp_micro : mantissaExp (1e-6 : ℚ) = (100000, -6) := by
  unfold mantissaExp
  rw [intLog10_micro]
  rw [show (1e-6 : ℚ) / 10 ^ ((-6 : ℤ) - 5) = ((100000 : ℤ) : ℚ) from by norm_num]
  rw [rhe_intCast]
  rw [if_neg (by decide)]
  rfl

theorem fmtG6_micro : fmtG6 (1e-6 : ℚ) = "1e-06".toList := by
  unfold fmtG6
  rw [if_neg (by norm_num), if_neg (by norm_num)]
  unfold fmtPos
  rw [mantissaExp_micro]
  decide

/-- C7.  `generate_pwl_text` yields the sentinel exactly below 2 points;
otherwise it renders `PWL(t1 v1 t2 v2 ...)` over the time-sorted points
with every number formatted by `%.6g` from the raw SI values — changing
the display units changes nothing — and the initial store renders as
`PWL(0 0 1e-06 0)`. -/
theorem claim_C7_format_text (s : PWLState) (tu vu : String) :
    (s.pwl_points.length < 2 → generate_pwl_text s = needAtLeast)
      ∧ generate_pwl_text (on_unit_change s tu vu) = generate_pwl_text s
      ∧ (¬ s.pwl_points.length < 2 →
        generate_pwl_text s = String.mk ("PWL(".toList
          ++ joinSp (pointTokens
            (s.pwl_points.insertionSort (fun p q : ℚ × ℚ => p.1 ≤ q.1)))
          ++ [')']))
      ∧ generate_pwl_text initState = "PWL(0 0 1e-06 0)" := by
  refine ⟨?_, rfl, ?_, ?_⟩
  · intro h
    unfold generate_pwl_text
    rw [if_pos h]
  · intro h
    unfold generate_pwl_text
    rw [if_neg h]
  · unfold generate_pwl_text
    rw [if_neg (by decide)]
    rw [show initState.pwl_points.insertionSort (fun p q : ℚ × ℚ => p.1 ≤ q.1)
        = [((0:ℚ), (0:ℚ)), (1e-6, 0)] from
      List.Sorted.insertionSort_eq (by
        refine List.Pairwise.cons ?_ (List.pairwise_singleton _ _)
        intro q hq
        rw [List.mem_singleton.mp hq]
        show (0:ℚ) ≤ 1e-6
        norm_num)]
    simp only [pointTokens]
    rw [fmtG6_zero, fmtG6_micro]
    decide

theorem claim_C7_witness :
    (initState.pwl_points.length < 2 → generate_pwl_text initState = needAtLeast)
      ∧ generate_pwl_text (on_unit_change initState "ms" "V")
        = generate_pwl_text initState
      ∧ (¬ initState.pwl_points.length < 2 →
        generate_pwl_text initState = String.mk ("PWL(".toList
          ++ joinSp (pointTokens
            (initState.pwl_points.insertionSort (fun p q : ℚ × ℚ => p.1 ≤ q.1)))
          ++ [')']))
      ∧ generate_pwl_text initState = "PWL(0 0 1e-06 0)" :=
  claim_C7_format_text initState "ms" "V"

/-! ## Claim C1: the parse/format round trip -/

theorem pointTokens_ok (L : List (ℚ × ℚ)) :
    ∀ t ∈ pointTokens L, t ≠ [] ∧ ∀ c ∈ t, c.isWhitespace = false := by
  induction L with
  | nil =>
    intro t ht
    simp [pointTokens] at ht
  | cons p rest ih =>
    intro t ht
    simp only [pointTokens, List.mem_cons] at ht
    rcases ht with rfl | rfl | ht
    · exact ⟨fmtG6_ne_nil _, fmtG6_no_ws _⟩
    · exact ⟨fmtG6_ne_nil _, fmtG6_no_ws _⟩
    · exact ih t ht

theorem pointTokens_length (L : List (ℚ × ℚ)) :
    (pointTokens L).length = 2 * L.length := by
  induction L with
  | nil => rfl
  | cons p rest ih =>
    simp only [pointTokens, List.length_cons, ih]
    omega

theorem parsePairs_pointTokens (L : List (ℚ × ℚ)) (hnn : ∀ p ∈ L, 0 ≤ p.1) :
    parsePairs (pointTokens L)
      = some (L.map (fun p => (round6 p.1, round6 p.2))) := by
  induction L with
  | nil => rfl
  | cons p rest ih =>
    simp only [pointTokens, parsePairs, List.map_cons]
    rw [parseFloat_fmtG6, parseFloat_fmtG6,
      ih (fun q hq => hnn q (List.mem_cons_of_mem p hq))]
    show some ((if round6 p.1 < 0 then (0:ℚ) else round6 p.1, round6 p.2)
        :: rest.map (fun p => (round6 p.1, round6 p.2)))
      = some ((round6 p.1, round6 p.2)
        :: rest.map (fun p => (round6 p.1, round6 p.2)))
    rw [if_neg (not_lt.mpr (round6_nonneg p.1 (hnn p (List.mem_cons_self p rest))))]

theorem map_round6_pairwise (L : List (ℚ × ℚ))
    (hs : List.Pairwise (fun p q : ℚ × ℚ => p.1 ≤ q.1) L)
    (hnn : ∀ p ∈ L, 0 ≤ p.1) :
    List.Pairwise (fun p q : ℚ × ℚ => p.1 ≤ q.1)
      (L.map (fun p => (round6 p.1, round6 p.2))) := by
  apply List.pairwise_map.mpr
  refine hs.imp_of_mem ?_
  intro a b ha hb hab
  exact round6_mono (hnn a ha) hab

/-- C1.  For every valid store (at least 2 points, sorted ascending by
time, nonnegative times), parsing the generated text succeeds and yields
exactly the stored points with every coordinate rounded to 6 significant
digits, in the same order, and that list is sorted ascending by time. -/
theorem claim_C1_parse_format_roundtrip (s : PWLState)
    (h2 : 2 ≤ s.pwl_points.length)
    (hsort : List.Pairwise (fun p q : ℚ × ℚ => p.1 ≤ q.1) s.pwl_points)
    (hnn : ∀ p ∈ s.pwl_points, 0 ≤ p.1) :
    parse_pwl_points (generate_pwl_text s)
        = some (s.pwl_points.map (fun p => (round6 p.1, round6 p.2)))
      ∧ List.Pairwise (fun p q : ℚ × ℚ => p.1 ≤ q.1)
        (s.pwl_points.map (fun p => (round6 p.1, round6 p.2))) := by
  have hMs := map_round6_pairwise s.pwl_points hsort hnn
  refine ⟨?_, hMs⟩
  unfold parse_pwl_points generate_pwl_text
  rw [if_neg (by omega)]
  rw [show (String.mk ("PWL(".toList
      ++ joinSp (pointTokens
        (s.pwl_points.insertionSort (fun p q : ℚ × ℚ => p.1 ≤ q.1)))
      ++ [')'])).toList
    = "PWL(".toList
      ++ joinSp (pointTokens
        (s.pwl_points.insertionSort (fun p q : ℚ × ℚ => p.1 ≤ q.1)))
      ++ [')'] from rfl]
  rw [List.Sorted.insertionSort_eq hsort]
  set B := joinSp (pointTokens s.pwl_points) with hB
  unfold parse_core
  have hshape : "PWL(".toList ++ B ++ [')'] = 'P' :: (('W' :: 'L' :: '(' :: B) ++ [')']) := by
    simp
  rw [hshape]
  rw [pstrip_eq_self 'P' ('W' :: 'L' :: '(' :: B) ')' (by decide) (by decide)]
  have hne2 : ('P' :: (('W' :: 'L' :: '(' :: B) ++ [')'])) ≠ needAtLeast.toList := by
    intro hcon
    have hh := congrArg List.head? hcon
    rw [show needAtLeast.toList.head? = some 'N' from rfl] at hh
    simp at hh
  rw [if_neg (by
    push_neg
    exact ⟨by simp, hne2⟩)]
  rw [← hshape]
  rw [stripWrapper_wrapped B]
  have hsplit : splitWs B = pointTokens s.pwl_points := by
    rw [hB]
    refine splitWs_joinSp _ ?_ (pointTokens_ok s.pwl_points)
    have hlen := pointTokens_length s.pwl_points
    intro hc
    rw [hc, List.length_nil] at hlen
    omega
  rw [hsplit]
  rw [if_neg (by
    rw [pointTokens_length]
    omega)]
  rw [parsePairs_pointTokens s.pwl_points hnn]
  show parse_finish (s.pwl_points.map (fun p => (round6 p.1, round6 p.2)))
    = some (s.pwl_points.map (fun p => (round6 p.1, round6 p.2)))
  unfold parse_finish
  rw [List.Sorted.insertionSort_eq hMs]
  rw [if_neg (by
    rw [List.length_map]
    omega)]

theorem claim_C1_witness :
    parse_pwl_points (generate_pwl_text initState)
        = some (initState.pwl_points.map (fun p => (round6 p.1, round6 p.2)))
      ∧ List.Pairwise (fun p q : ℚ × ℚ => p.1 ≤ q.1)
        (initState.pwl_points.map (fun p => (round6 p.1, round6 p.2))) :=
  claim_C1_parse_format_roundtrip initState (by decide)
    (by
      refine List.Pairwise.cons ?_ (List.pairwise_singleton _ _)
      intro q hq
      rw [List.mem_singleton.mp hq]
      show (0:ℚ) ≤ 1e-6
      norm_num)
    (by
      intro p hp
      rcases List.mem_cons.mp hp with rfl | hp2
      · norm_num
      rcases List.mem_cons.mp hp2 with rfl | hp3
      · norm_num
      · simp at hp3)

/-! ## Claim C10: loading never re-snaps, parsing does -/

/-- The initial store with grid snapping switched on (grids 1 µs / 1 mV). -/
def snapState : PWLState := { initState with grid_snap_enabled := true }

/-- A snapshot with an off-grid point and snapping enabled. -/
def snapDoc : SaveDoc where
  pwl_points := [(0, 0), (2.6e-6, 0)]
  source_type := "Voltage"
  time_unit := "μs"
  value_unit := "mV"
  x_range := (0, 10)
  y_range := (-5, 5)
  grid_snap_enabled := true
  time_grid_size := 1
  value_grid_size := 1

theorem rhe_26 : rhe (2.6 : ℚ) = 3 := by
  unfold rhe
  rw [show ⌊(2.6:ℚ)⌋ = 2 from by norm_num]
  rw [if_neg (by norm_num), if_pos (by norm_num)]
  decide

/-- The store a successful parse builds before the re-snap. -/
def loadedR : PWLState :=
  { snapState with
    pwl_points := [(0, 0), (2.6e-6, 0)]
    selected_point := none }

theorem parse_success_points_of_snap {s : PWLState} {pts L : List (ℚ × ℚ)}
    (hon : s.grid_snap_enabled = true)
    (hsn : snap_all_points_to_grid { s with pwl_points := pts, selected_point := none }
      = some { s with pwl_points := L, selected_point := none }) :
    (parse_success_state s pts).pwl_points = L := by
  unfold parse_success_state
  rw [if_pos hon, hsn]

theorem loadedR_snap : snap_all_points_to_grid loadedR
    = some { loadedR with pwl_points := [(0, 0), (3e-6, 0)] } := by
  unfold snap_all_points_to_grid
  rw [if_neg (by decide)]
  rw [show time_scale loadedR = some (1e-6 : ℚ) from rfl]
  rw [show value_scale loadedR = some (1e-3 : ℚ) from rfl]
  refine congrArg some (congrArg (fun L => { loadedR with pwl_points := L }) ?_)
  rw [show loadedR.pwl_points = [((0:ℚ), (0:ℚ)), (2.6e-6, 0)] from rfl]
  simp only [List.map_cons, List.map_nil]
  have hs0 : snap_to_grid loadedR (((0:ℚ), (0:ℚ)).1 / 1e-6) (((0:ℚ), (0:ℚ)).2 / 1e-3)
      = ((0:ℚ), (0:ℚ)) := by
    unfold snap_to_grid
    rw [if_neg (by decide)]
    rw [show loadedR.time_grid_size = (1:ℚ) from rfl,
      show loadedR.value_grid_size = (1:ℚ) from rfl]
    rw [if_neg (by norm_num)]
    rw [show (((0:ℚ), (0:ℚ)).1 / (1e-6:ℚ)) / (1:ℚ) = ((0:ℤ):ℚ) from by norm_num]
    rw [show (((0:ℚ), (0:ℚ)).2 / (1e-3:ℚ)) / (1:ℚ) = ((0:ℤ):ℚ) from by norm_num]
    rw [rhe_intCast]
    rw [show (((0:ℤ):ℚ)) * (1:ℚ) = (0:ℚ) from by norm_num, max_self]
  have hs1 : snap_to_grid loadedR (((2.6e-6:ℚ), (0:ℚ)).1 / 1e-6)
      (((2.6e-6:ℚ), (0:ℚ)).2 / 1e-3) = ((3:ℚ), (0:ℚ)) := by
    unfold snap_to_grid
    rw [if_neg (by decide)]
    rw [show loadedR.time_grid_size = (1:ℚ) from rfl,
      show loadedR.value_grid_size = (1:ℚ) from rfl]
    rw [if_neg (by norm_num)]
    rw [show (((2.6e-6:ℚ), (0:ℚ)).1 / (1e-6:ℚ)) / (1:ℚ) = (2.6:ℚ) from by norm_num]
    rw [show (((2.6e-6:ℚ), (0:ℚ)).2 / (1e-3:ℚ)) / (1:ℚ) = ((0:ℤ):ℚ) from by norm_num]
    rw [rhe_26, rhe_intCast]
    rw [show (((3:ℤ):ℚ)) * (1:ℚ) = (3:ℚ) from by norm_num]
    rw [show (((0:ℤ):ℚ)) * (1:ℚ) = (0:ℚ) from by norm_num]
    rw [show max (0:ℚ) (3:ℚ) = (3:ℚ) from max_eq_right (by norm_num)]
  rw [hs0, hs1]
  rw [show (((0:ℚ), (0:ℚ)).1 * (1e-6:ℚ), ((0:ℚ), (0:ℚ)).2 * (1e-3:ℚ))
    = ((0:ℚ), (0:ℚ)) from by norm_num]
  rw [show (((3:ℚ), (0:ℚ)).1 * (1e-6:ℚ), ((3:ℚ), (0:ℚ)).2 * (1e-3:ℚ))
    = ((3e-6:ℚ), (0:ℚ)) from by norm_num]
  exact List.Sorted.insertionSort_eq (by
    refine List.Pairwise.cons ?_ (List.pairwise_singleton _ _)
    intro q hq
    rw [List.mem_singleton.mp hq]
    show (0:ℚ) ≤ 3e-6
    norm_num)

theorem snap_success_points :
    (parse_success_state snapState [(0, 0), (2.6e-6, 0)]).pwl_points
      = [(0, 0), (3e-6, 0)] := by
  refine parse_success_points_of_snap rfl ?_
  exact loadedR_snap

/-- C10.  `load_file` adopts the snapshot's point list verbatim — no
re-snapping even when the snapshot enables grid snapping — while a
successful text parse with snapping enabled re-snaps: loading the
off-grid point `2.6e-6` keeps it, parsing the same list snaps it to
`3e-6`, so loaded points may lie off-grid while snapping is on. -/
theorem claim_C10_load_no_snap (s : PWLState) (d : SaveDoc) :
    (load_file s d).pwl_points = d.pwl_points
      ∧ (load_file s d).grid_snap_enabled = d.grid_snap_enabled
      ∧ snapDoc.grid_snap_enabled = true
      ∧ (load_file snapState snapDoc).pwl_points = [(0, 0), (2.6e-6, 0)]
      ∧ (parse_success_state snapState [(0, 0), (2.6e-6, 0)]).pwl_points
        = [(0, 0), (3e-6, 0)]
      ∧ ([((0:ℚ), (0:ℚ)), (2.6e-6, 0)] : List (ℚ × ℚ)) ≠ [(0, 0), (3e-6, 0)] := by
  refine ⟨?_, ?_, rfl, ?_, snap_success_points, ?_⟩
  · unfold load_file update_range on_source_type_change
    split_ifs <;> rfl
  · unfold load_file update_range on_source_type_change
    split_ifs <;> rfl
  · unfold load_file update_range on_source_type_change
    split_ifs <;> rfl
  · norm_num [List.cons.injEq, Prod.mk.injEq]

end PWLGen
